import Mathlib

/-!
# Verification of the App-Store-Data release-generation scripts

This file gives a shallow embedding of the two build scripts of the
repository:

* `.scripts/generate-releases.js` (namespace `GenRel`): groups validated
  metadata entries by category, writes one release file per category plus a
  `categories.json` index, and removes stale `category-*.json` files.
* `.github/scripts/generate-category-all.json.js` (namespace `GenAll`):
  aggregates every parsed metadata file into a single consolidated
  `category-all.json` document.

JSON documents are modelled by the inductive type `JValue`; the dynamic
behaviour of the JavaScript host (truthiness, string coercion of object
keys, property access, the exceptions thrown by calling string methods on
non-string values) is modelled explicitly.  Filesystem reads, the git
subprocess and the wall clock are inputs (`MetadataFile`, `GitOracle`);
write successes are boolean inputs.  `localeCompare` is an abstract
comparison parameter `cmp : String → String → Ordering`; a comparator call
`a.name.localeCompare(b.name)` that would throw a `TypeError` is modelled in
the `Except Unit` monad.  Array sorting is modelled by a stable insertion
sort, a concrete representative of the engine's stable comparison sort.
-/

namespace AppStore

/-- A parsed JSON value.  Objects are association lists in property order;
`JSON.parse` resolves duplicate keys before this representation, so keys are
assumed distinct. -/
inductive JValue where
  | jnull
  | jbool (b : Bool)
  | jnum (n : Int)
  | jstr (s : String)
  | jarr (elems : List JValue)
  | jobj (fields : List (String × JValue))
deriving Inhabited

/-- JavaScript property read `v[k]`: `some` value for a present object key,
`none` (i.e. `undefined`) otherwise. -/
def getField : JValue → String → Option JValue
  | .jobj fs, k => (fs.find? (fun p => p.1 = k)).map (fun p => p.2)
  | _, _ => none

/-- Set a key on an association list the way JavaScript property assignment
does: an existing key keeps its position, a new key is appended. -/
def setKey (fs : List (String × JValue)) (k : String) (v : JValue) :
    List (String × JValue) :=
  if fs.any (fun p => p.1 = k) then
    fs.map (fun p => if p.1 = k then (k, v) else p)
  else fs ++ [(k, v)]

/-- JavaScript property assignment `m[k] = v` (a no-op on primitives, as in
non-strict mode). -/
def setField : JValue → String → JValue → JValue
  | .jobj fs, k, v => .jobj (setKey fs k v)
  | m, _, _ => m

/-- JavaScript truthiness of a value. -/
def jsTruthy : JValue → Bool
  | .jnull => false
  | .jbool b => b
  | .jnum n => n != 0
  | .jstr s => s != ""
  | .jarr _ => true
  | .jobj _ => true

mutual
/-- JavaScript `ToString` coercion (used for object keys and template
literals).  Arrays stringify by joining their elements with `,`; plain
objects give `"[object Object]"`. -/
def jsToString : JValue → String
  | .jnull => "null"
  | .jbool b => if b then "true" else "false"
  | .jnum n => toString n
  | .jstr s => s
  | .jarr xs => jsToStringList xs
  | .jobj _ => "[object Object]"

/-- `ToString` of an array's element list (comma-joined). -/
def jsToStringList : List JValue → String
  | [] => ""
  | [x] => jsToString x
  | x :: y :: xs => jsToString x ++ "," ++ jsToStringList (y :: xs)
end

/-- `ToString` of a possibly-`undefined` value: `undefined` stringifies to
`"undefined"`. -/
def jsToStringOpt : Option JValue → String
  | none => "undefined"
  | some v => jsToString v

/-- The property names a bracket lookup on a plain object finds on the
prototype chain even when no own property exists: the members of
`Object.prototype` (all truthy — functions, plus the `__proto__`
accessor, whose read yields `Object.prototype` itself).  For such a key
`k`, `obj[k]` on `{}` is truthy, so the scripts' `!obj[k]` bucket-creation
guards are skipped. -/
def objectPrototypeKeys : List String :=
  ["constructor", "hasOwnProperty", "isPrototypeOf", "propertyIsEnumerable",
   "toLocaleString", "toString", "valueOf", "__defineGetter__",
   "__defineSetter__", "__lookupGetter__", "__lookupSetter__", "__proto__"]

/-- Does the character match the JavaScript character class `[a-z0-9]`? -/
def isLowerAlnum (c : Char) : Bool :=
  ('a' ≤ c && c ≤ 'z') || ('0' ≤ c && c ≤ '9')

/-- Slug computation of `generate-releases.js`
(`category.toLowerCase().replace(/[^a-z0-9]/g, '-')`): each character not in
`[a-z0-9]` is replaced by one `-`.  `Char.toLower` models
`String.prototype.toLowerCase` on the basic-latin range, which is identity
exactly where the replacement below keeps a character. -/
def slugifyRel (s : String) : String :=
  String.mk ((s.data.map Char.toLower).map
    (fun c => if isLowerAlnum c then c else '-'))

/-- One global-replace pass of `/[^a-z0-9]+/g` by `"-"`: each maximal run of
characters outside `[a-z0-9]` becomes a single `-`. -/
def collapseReplace : List Char → List Char
  | [] => []
  | c :: cs =>
    if isLowerAlnum c then c :: collapseReplace cs
    else '-' :: collapseReplace (cs.dropWhile (fun d => !isLowerAlnum d))
termination_by l => l.length
decreasing_by
  · simp +arith
  · simp only [List.length_cons]
    exact Nat.lt_succ_of_le ((List.dropWhile_sublist _).length_le)

/-- Slug computation of `generate-category-all.json.js`
(`categoryName.toLowerCase().replace(/[^a-z0-9]+/g, '-')`). -/
def slugifyAll (s : String) : String :=
  String.mk (collapseReplace (s.data.map Char.toLower))

/-- External state the scripts consult: the git subprocess and the wall
clock.  `statusDirty p` models `git status --porcelain "p"` (`.ok true` when
the file is listed, `.error` when the subprocess fails); `logTimestamp p`
models `git log -1 --format=%ct --follow -- "p"` with its output already
trimmed and parsed (`.ok none` for empty output, i.e. no history); `now`
models `Math.floor(Date.now() / 1000)`. -/
structure GitOracle where
  statusDirty : String → Except Unit Bool
  logTimestamp : String → Except Unit (Option Int)
  now : Int

/-- The release-file path the releases script derives for a category. -/
def categoryReleasePath (category : String) : String :=
  "releases/category-" ++ slugifyRel category ++ ".json"

/-- `getLastCommitTimestampForCategory` of `generate-releases.js`: if the
category release file shows uncommitted changes, current time; a failing
status query falls through to the history query; then the last commit
timestamp if any, else (empty history or failing query) current time.  The
`categorizedApps` argument of the source function is unused there and
omitted here. -/
def getLastCommitTimestampForCategory (git : GitOracle) (category : String) :
    Int :=
  let categoryFilePath := categoryReleasePath category
  match git.statusDirty categoryFilePath with
  | .ok true => git.now
  | _ =>
    match git.logTimestamp categoryFilePath with
    | .ok (some t) => t
    | .ok none => git.now
    | .error _ => git.now

/-- `getLastCommitTimestampForMetadataFile` of
`generate-category-all.json.js`: the last commit timestamp of the metadata
file if any, else (empty history or failing query) current time.  There is
no dirty-status step in this script. -/
def getLastCommitTimestampForMetadataFile (git : GitOracle)
    (filePath : String) : Int :=
  match git.logTimestamp filePath with
  | .ok (some t) => t
  | .ok none => git.now
  | .error _ => git.now

/-- One discovered `metadata.json` file, as the collectors hand it to the
loaders.  `relPath` is the path relative to the repository root
(`relativePath` in `generate-category-all.json.js`), `dirPath` its directory
(`path.dirname(filePath)` in `generate-releases.js`, `directoryPath` in the
other script), `parsed` the result of reading and `JSON.parse`-ing the file
(`none` when either throws). -/
structure MetadataFile where
  relPath : String
  dirPath : String
  parsed : Option JValue

/-! ## Array sorting

`Array.prototype.sort` with a user comparator is a stable comparison sort;
the comparator may throw.  `insertSortedE` and `sortByE` give a stable
insertion sort in the `Except` monad (the first throwing comparison aborts
the sort, as the engine's does); `insertOrd` and `sortOrd` are the pure
version for comparators that cannot throw.  An element `x` is placed after
`y` exactly when the comparator returns a positive number (`Ordering.gt`).
-/

/-- Insert `x` into `l`, moving it past every `y` with `cmpE x y` positive;
a throwing comparison aborts. -/
def insertSortedE (cmpE : α → α → Except Unit Ordering) (x : α) :
    List α → Except Unit (List α)
  | [] => .ok [x]
  | y :: ys =>
    match cmpE x y with
    | .error e => .error e
    | .ok .gt =>
      match insertSortedE cmpE x ys with
      | .error e => .error e
      | .ok r => .ok (y :: r)
    | .ok _ => .ok (x :: y :: ys)

/-- Stable insertion sort in the `Except` monad. -/
def sortByE (cmpE : α → α → Except Unit Ordering) :
    List α → Except Unit (List α)
  | [] => .ok []
  | x :: xs =>
    match sortByE cmpE xs with
    | .error e => .error e
    | .ok r => insertSortedE cmpE x r

/-- Pure insertion of `x` past every `y` with `f x y = .gt`. -/
def insertOrd (f : α → α → Ordering) (x : α) : List α → List α
  | [] => [x]
  | y :: ys => if f x y = .gt then y :: insertOrd f x ys else x :: y :: ys

/-- Pure stable insertion sort. -/
def sortOrd (f : α → α → Ordering) : List α → List α
  | [] => []
  | x :: xs => insertOrd f x (sortOrd f xs)

/-- The comparator `(a, b) => a.name.localeCompare(b.name)` the scripts pass
to `sort` on app objects: it throws a `TypeError` unless `a.name` is a
string (a missing or non-string `name` has no `localeCompare` method), and
coerces `b.name` to a string.  `cmp` stands for the host's locale
comparison. -/
def localeCompareApp (cmp : String → String → Ordering) (a b : JValue) :
    Except Unit Ordering :=
  match getField a "name" with
  | some (.jstr s) => .ok (cmp s (jsToStringOpt (getField b "name")))
  | _ => .error ()

namespace GenRel

/-! ## `generate-releases.js` -/

/-- The required fields checked by `loadMetadata`. -/
def requiredFields : List String :=
  ["name", "category", "description", "version", "commit", "owner", "repo",
   "path"]

/-- Is the field missing, `null` or the empty string?  (The source also
tests `=== undefined`, which `JSON.parse` output cannot contain; `0` and
`false` pass the check.) -/
def fieldAbsentOrEmpty (m : JValue) (k : String) : Bool :=
  match getField m k with
  | none => true
  | some .jnull => true
  | some (.jstr s) => s = ""
  | some _ => false

/-- `loadMetadata`: `none` on a read/parse failure, on a non-object value
(where the `in` operator throws inside the `try`), or on a missing/empty
required field; otherwise the object with the normalized source directory
attached as `filePath`. -/
def loadMetadata (f : MetadataFile) : Option JValue :=
  match f.parsed with
  | none => none
  | some m =>
    match m with
    | .jobj _ =>
      if requiredFields.any (fun k => fieldAbsentOrEmpty m k) then none
      else some (setField m "filePath" (.jstr (f.dirPath.replace "\\" "/")))
    | _ => none

/-- Append an app under its category key in the plain object
`categorizedApps` (JavaScript object keys are strings, so the category
value is coerced).  The guard `!categorizedApps[category]` is a
prototype-chain lookup: an own bucket (an array, always truthy) receives
the push; with no own bucket but a key naming an inherited
`Object.prototype` member the lookup is still truthy, creation is skipped
and the following `.push` on the inherited value throws an unhandled
`TypeError`; only otherwise is a fresh bucket created. -/
def addToCategory (acc : List (String × List JValue)) (key : String)
    (app : JValue) : Except Unit (List (String × List JValue)) :=
  if acc.any (fun p => p.1 = key) then
    .ok (acc.map (fun p => if p.1 = key then (p.1, p.2 ++ [app]) else p))
  else if objectPrototypeKeys.contains key then .error ()
  else .ok (acc ++ [(key, [app])])

/-- The grouping loop of `main`: load each file, skip invalid ones, group
the rest by coerced category key; an unhandled `TypeError` aborts the
run. -/
def categorizeAux (acc : List (String × List JValue)) :
    List MetadataFile → Except Unit (List (String × List JValue))
  | [] => .ok acc
  | f :: rest =>
    match loadMetadata f with
    | none => categorizeAux acc rest
    | some m =>
      match addToCategory acc
          (jsToString ((getField m "category").getD .jnull)) m with
      | .error e => .error e
      | .ok acc' => categorizeAux acc' rest

/-- `categorizedApps` built from the discovered files, or the grouping
`TypeError`. -/
def categorize (files : List MetadataFile) :
    Except Unit (List (String × List JValue)) :=
  categorizeAux [] files

/-- The groups of a completed grouping pass (empty for an aborted one);
used to state facts about completed runs. -/
def categorizedApps (files : List MetadataFile) :
    List (String × List JValue) :=
  (categorize files).toOption.getD []

/-- Fields removed from an app by the destructuring in `main`
(`supported-devices` and `supported-screen-size` are *not* among them). -/
def stripFields : List String :=
  ["commit", "owner", "repo", "path", "filePath", "category", "files"]

/-- The rest-pattern of the destructuring in `main`: the app's properties
with the internal fields removed (empty for a non-object). -/
def cleanBase (app : JValue) : List (String × JValue) :=
  match app with
  | .jobj fs => fs.filter (fun p => !stripFields.contains p.1)
  | _ => []

/-- The composite display slug `owner/repo/name` (template-literal
coercion). -/
def cleanSlug (app : JValue) : String :=
  jsToStringOpt (getField app "owner") ++ "/" ++
    jsToStringOpt (getField app "repo") ++ "/" ++
    jsToStringOpt (getField app "name")

/-- `app.category === 'Themes'` (strict equality). -/
def appIsTheme (app : JValue) : Bool :=
  match getField app "category" with
  | some (.jstr s) => s = "Themes"
  | _ => false

/-- The conditional re-assignment of `supported-devices` (a no-op in effect,
since the destructuring keeps the field). -/
def addSupportedDevices (app : JValue) (bs : List (String × JValue)) :
    List (String × JValue) :=
  match getField app "supported-devices" with
  | some v =>
    if jsTruthy v && !appIsTheme app then setKey bs "supported-devices" v
    else bs
  | none => bs

/-- The conditional re-assignment of `supported-screen-size`. -/
def addSupportedScreen (app : JValue) (bs : List (String × JValue)) :
    List (String × JValue) :=
  match getField app "supported-screen-size" with
  | some v =>
    if jsTruthy v && appIsTheme app then setKey bs "supported-screen-size" v
    else bs
  | none => bs

/-- The cleaned app written into a category release file: internal fields
stripped, the composite `slug` added, then the conditional support-list
re-assignments as in the source. -/
def cleanApp (app : JValue) : JValue :=
  .jobj (addSupportedScreen app (addSupportedDevices app
    (setKey (cleanBase app) "slug" (.jstr (cleanSlug app)))))

/-- One successfully generated `category-<slug>.json` document together with
its file name. -/
structure ReleaseFile where
  fileName : String
  category : String
  count : Nat
  apps : List JValue

/-- One entry of the `categories.json` index. -/
structure CategoryIndexEntry where
  name : String
  slug : String
  count : Nat
  lastUpdated : Int

/-- The `categories.json` document. -/
structure CategoriesIndex where
  totalCategories : Nat
  totalApps : Nat
  categories : List CategoryIndexEntry

/-- Everything `generate-releases.js` consumes: the discovered files, git
and clock, the success of each attempted write (`writeReleaseOk` by release
file name, `writeIndexOk` for `categories.json`), the names present in the
`releases` directory before the run, and the host's locale comparison. -/
structure RelInput where
  files : List MetadataFile
  git : GitOracle
  writeReleaseOk : String → Bool
  writeIndexOk : Bool
  existingFiles : List String
  cmp : String → String → Ordering

/-- The observable outcome of a completed `generate-releases.js` run:
successfully written release documents and their names, the index document
if written, the names removed by the stale-file cleanup, and the process
exit code. -/
structure RelOutput where
  written : List ReleaseFile
  releaseFiles : List String
  indexWritten : Option CategoriesIndex
  removed : List String
  exitCode : Nat

/-- The per-category loop of `main`: sort the category's apps by name
(aborting the run if the comparator throws), clean them, and record the
document when its write succeeds.  Returns the written documents, the
written file names (`releaseFiles`) and the category names with releases
(`categoriesWithReleases`), in category order. -/
def processCategories (cmp : String → String → Ordering)
    (wOk : String → Bool) :
    List (String × List JValue) →
    Except Unit (List ReleaseFile × List String × List String)
  | [] => .ok ([], [], [])
  | (category, apps) :: rest =>
    let fileName := "category-" ++ slugifyRel category ++ ".json"
    match sortByE (localeCompareApp cmp) apps with
    | .error e => .error e
    | .ok sorted =>
      match processCategories cmp wOk rest with
      | .error e => .error e
      | .ok (ws, names, cats) =>
        if wOk fileName then
          .ok (⟨fileName, category, apps.length, sorted.map cleanApp⟩ :: ws,
               fileName :: names, category :: cats)
        else .ok (ws, names, cats)

/-- One row of the `categories.json` index for category name `c`: its slug,
the size of its bucket in `categorizedApps`, and the resolved timestamp of
its release file. -/
def indexEntry (git : GitOracle)
    (categorized : List (String × List JValue)) (c : String) :
    CategoryIndexEntry :=
  ⟨c, slugifyRel c,
   ((categorized.find? (fun p => p.1 = c)).map (fun p => p.2.length)).getD 0,
   getLastCommitTimestampForCategory git c⟩

/-- The `categories.json` document written by `main` (or `none` when there
are no categories with releases, or its write fails): one sorted row per
category with a successfully written release file; `totalApps` sums over all
buckets, written or not. -/
def buildIndex (inp : RelInput)
    (categorized : List (String × List JValue)) (cats : List String) :
    Option CategoriesIndex :=
  if cats.length > 0 then
    if inp.writeIndexOk then
      some ⟨cats.length, (categorized.map (fun p => p.2.length)).sum,
        sortOrd (fun a b => inp.cmp a.name b.name)
          (cats.map (indexEntry inp.git categorized))⟩
    else none
  else none

/-- `String.prototype.startsWith`, character-wise. -/
def strStartsWith (s p : String) : Bool := p.data.isPrefixOf s.data

/-- `String.prototype.endsWith`, character-wise. -/
def strEndsWith (s p : String) : Bool := p.data.isSuffixOf s.data

/-- The stale-file cleanup: every name in the releases directory matching
`category-*.json` that is not among the names written this run
(`unlinkSync` itself is assumed to succeed). -/
def staleRemoved (existing names : List String) : List String :=
  existing.filter (fun f =>
    strStartsWith f "category-" && strEndsWith f ".json" &&
      !names.contains f)

/-- `main` of `generate-releases.js`.  `.error` models an unhandled
exception reaching the final `catch` (exit code 1 before any remaining
work); an early return on zero discovered files produces no writes and no
cleanup.  A failed write of a release file or of `categories.json` is caught
and logged, so a completed run always exits 0. -/
def relMain (inp : RelInput) : Except Unit RelOutput :=
  if inp.files.length = 0 then .ok ⟨[], [], none, [], 0⟩
  else
    match categorize inp.files with
    | .error e => .error e
    | .ok categorized =>
      match processCategories inp.cmp inp.writeReleaseOk categorized with
      | .error e => .error e
      | .ok (written, names, cats) =>
        .ok ⟨written, names, buildIndex inp categorized cats,
          staleRemoved inp.existingFiles names, 0⟩

/-- The process exit code of a `generate-releases.js` invocation: an
unhandled exception is caught by `main().catch`, which exits 1. -/
def relExitCode (inp : RelInput) : Nat :=
  match relMain inp with
  | .ok o => o.exitCode
  | .error _ => 1

end GenRel

namespace GenAll

/-! ## `generate-category-all.json.js` -/

/-- The app object `readAllMetadataFiles` builds for one parsed file: the
metadata spread into a fresh object, with `slug` (the directory path with
the leading `repositories` segment removed), `lastUpdated` (the resolved
timestamp of the metadata file) and `metadataPath` added.  Spreading a
non-object contributes no named properties. -/
def mkApp (git : GitOracle) (f : MetadataFile) (m : JValue) : JValue :=
  let lastUpdated := getLastCommitTimestampForMetadataFile git f.relPath
  let appSlug := String.intercalate "/" ((f.dirPath.splitOn "/").drop 1)
  let base :=
    match m with
    | .jobj fs => fs
    | _ => []
  .jobj (setKey (setKey (setKey base "slug" (.jstr appSlug))
      "lastUpdated" (.jnum lastUpdated))
      "metadataPath" (.jstr (f.relPath.replace "\\" "/")))

/-- `readAllMetadataFiles`: every file that reads and parses is turned into
an app object — there is no required-field validation in this script; a
failing read or parse is caught and the file skipped. -/
def readAllMetadataFiles (git : GitOracle) :
    List MetadataFile → List JValue
  | [] => []
  | f :: rest =>
    match f.parsed with
    | none => readAllMetadataFiles git rest
    | some m => mkApp git f m :: readAllMetadataFiles git rest

/-- One category bucket built by `organizeAppsByCategory` (`lastUpdated` is
attached later, in `main`).  Its object key in the source is the coerced
category string, which always equals `name`: the bucket is only ever created
from a string category (`toLowerCase` throws otherwise). -/
structure CategoryData where
  name : String
  slug : String
  count : Nat
  apps : List JValue

/-- `app.category || 'Uncategorized'`: the category value, with the sentinel
substituted for a falsy (or absent) category. -/
def categoryValue (app : JValue) : JValue :=
  let c := (getField app "category").getD .jnull
  if jsTruthy c then c else .jstr "Uncategorized"

/-- One step of the grouping loop.  The bucket lookup
`!categories[categoryName]` coerces the category value to a string key and
consults the prototype chain: an own bucket (an object, truthy) is updated;
with no own bucket but a key naming an inherited `Object.prototype` member
the lookup is still truthy, creation is skipped and `.apps.push` on the
inherited value throws an unhandled `TypeError`; only otherwise is the
bucket created, evaluating `categoryName.toLowerCase()`, which itself
throws when the truthy category value is not a string. -/
def addApp (acc : List CategoryData) (app : JValue) :
    Except Unit (List CategoryData) :=
  if acc.any (fun c => c.name = jsToString (categoryValue app)) then
    .ok (acc.map (fun c =>
      if c.name = jsToString (categoryValue app) then
        { c with count := c.count + 1, apps := c.apps ++ [app] }
      else c))
  else if objectPrototypeKeys.contains (jsToString (categoryValue app)) then
    .error ()
  else
    match categoryValue app with
    | .jstr s => .ok (acc ++ [⟨s, slugifyAll s, 1, [app]⟩])
    | _ => .error ()

/-- The grouping loop of `organizeAppsByCategory` over all apps. -/
def groupAppsAux (acc : List CategoryData) :
    List JValue → Except Unit (List CategoryData)
  | [] => .ok acc
  | app :: rest =>
    match addApp acc app with
    | .error e => .error e
    | .ok acc' => groupAppsAux acc' rest

/-- The per-bucket name sort at the end of `organizeAppsByCategory` (the
comparator can throw on non-string names). -/
def sortCats (cmp : String → String → Ordering) :
    List CategoryData → Except Unit (List CategoryData)
  | [] => .ok []
  | c :: rest =>
    match sortByE (localeCompareApp cmp) c.apps with
    | .error e => .error e
    | .ok sorted =>
      match sortCats cmp rest with
      | .error e => .error e
      | .ok rest' => .ok ({ c with apps := sorted } :: rest')

/-- `organizeAppsByCategory`: group all apps, then sort each bucket's apps
by name. -/
def organizeAppsByCategory (cmp : String → String → Ordering)
    (apps : List JValue) : Except Unit (List CategoryData) :=
  match groupAppsAux [] apps with
  | .error e => .error e
  | .ok cats => sortCats cmp cats

/-- The `lastUpdated` value an app carries (always the `jnum` installed by
`mkApp`; the default covers unreachable cases of the numeric coercion in
`Math.max`). -/
def appLastUpdated (app : JValue) : Int :=
  match getField app "lastUpdated" with
  | some (.jnum n) => n
  | _ => 0

/-- `getCategoryLastUpdated`: `Math.max(...apps.map(app => app.lastUpdated))`.
The empty case (`Math.max()` is negative infinity) is never reached, since
every bucket holds at least one app. -/
def getCategoryLastUpdated (apps : List JValue) : Int :=
  match apps.map appLastUpdated with
  | [] => 0
  | t :: ts => ts.foldl max t

/-- One category of the consolidated document, with its `lastUpdated`. -/
structure CategoryAllEntry where
  name : String
  slug : String
  count : Nat
  apps : List JValue
  lastUpdated : Int

/-- The `category-all.json` document (`generatedISO` is the ISO rendering of
`generated` and is not modelled separately). -/
structure CategoryAllData where
  generated : Int
  totalCategories : Nat
  totalApps : Nat
  categories : List CategoryAllEntry

/-- Everything `generate-category-all.json.js` consumes. -/
structure AllInput where
  files : List MetadataFile
  git : GitOracle
  generatedAt : Int
  writeOk : Bool
  cmp : String → String → Ordering

/-- The observable outcome of a completed run: the document if its write
succeeded, and the process exit code (1 exactly on the write failure
path, via `process.exit(1)`). -/
structure AllOutput where
  written : Option CategoryAllData
  exitCode : Nat

/-- The consolidated document built by `main` from the loaded apps and the
grouped-and-sorted categories: per-category `lastUpdated` attached, the
categories sorted by name, plus the generation stamp and totals. -/
def buildAllData (cmp : String → String → Ordering) (generatedAt : Int)
    (apps : List JValue) (cats : List CategoryData) : CategoryAllData :=
  let sorted := sortOrd (fun a b => cmp a.name b.name)
    (cats.map (fun c =>
      { name := c.name, slug := c.slug, count := c.count, apps := c.apps,
        lastUpdated := getCategoryLastUpdated c.apps : CategoryAllEntry }))
  ⟨generatedAt, sorted.length, apps.length, sorted⟩

/-- `main` of `generate-category-all.json.js`: read every file, return early
when no apps were loaded, group and sort, attach per-category `lastUpdated`,
sort the categories by name, and write the single consolidated document.
`.error` models an unhandled exception reaching `main().catch`. -/
def allMain (inp : AllInput) : Except Unit AllOutput :=
  if (readAllMetadataFiles inp.git inp.files).length = 0 then .ok ⟨none, 0⟩
  else
    match organizeAppsByCategory inp.cmp
        (readAllMetadataFiles inp.git inp.files) with
    | .error e => .error e
    | .ok cats =>
      if inp.writeOk then
        .ok ⟨some (buildAllData inp.cmp inp.generatedAt
          (readAllMetadataFiles inp.git inp.files) cats), 0⟩
      else .ok ⟨none, 1⟩

/-- The process exit code of an invocation (an unhandled exception is caught
by `main().catch`, which exits 1). -/
def allExitCode (inp : AllInput) : Nat :=
  match allMain inp with
  | .ok o => o.exitCode
  | .error _ => 1

end GenAll

/-! ## Specification-side definitions

These definitions follow the wording of the specification and of the claims
(not the code); the theorems below compare the code-side pipeline against
them. -/

/-- The per-character replacement applied by a slug regex without run
collapsing: a character outside `[a-z0-9]` becomes one `-`. -/
def replaceNonAlnum (c : Char) : Char := if isLowerAlnum c then c else '-'

/-- Collapse every maximal run of consecutive hyphens to a single hyphen. -/
def squeezeHyphens : List Char → List Char
  | [] => []
  | [c] => [c]
  | a :: b :: rest =>
    if a = '-' && b = '-' then squeezeHyphens (b :: rest)
    else a :: squeezeHyphens (b :: rest)

/-- Slug per the claim's reading of the per-category script: the name
lowercased, then each non-alphanumeric character replaced by its own
hyphen. -/
def slugSpecPerChar (s : String) : String :=
  String.mk (s.data.map (fun c => replaceNonAlnum c.toLower))

/-- Slug per the claim's wording for run collapsing: the name lowercased,
then every maximal run of non-alphanumeric characters replaced by a single
hyphen (equivalently: per-character replacement with hyphen runs
squeezed). -/
def slugSpecCollapse (s : String) : String :=
  String.mk (squeezeHyphens (slugSpecPerChar s).data)

/-- The timestamp fallback chain exactly as claim C5 states it for both
scripts: dirty working tree → current time; else the most recent commit
timestamp if one exists; else (no history, or any tooling error) current
time. -/
def resolverSpecChain (git : GitOracle) (p : String) : Int :=
  match git.statusDirty p with
  | .ok true => git.now
  | .ok false =>
    match git.logTimestamp p with
    | .ok (some t) => t
    | _ => git.now
  | .error _ => git.now

/-- The two properties of the abstract locale comparator under which
sortedness statements are made: it never reports both orders of a pair as
strictly greater, and non-greater is transitive. -/
def cmpConsistent (cmp : String → String → Ordering) : Prop :=
  (∀ a b, cmp a b = .gt → cmp b a ≠ .gt) ∧
  (∀ a b c, cmp a b ≠ .gt → cmp b c ≠ .gt → cmp a c ≠ .gt)

/-- The parsed content of the file, if any, carries a string `name`. -/
def nameIsString (f : MetadataFile) : Prop :=
  ∀ m, f.parsed = some m → ∃ s, getField m "name" = some (.jstr s)

/-- The parsed content of the file, if any, is an object whose `name` is a
string and whose `category` is falsy or a string. -/
def wellTypedEntry (f : MetadataFile) : Prop :=
  ∀ m, f.parsed = some m →
    (∃ fs, m = .jobj fs) ∧
    (∃ s, getField m "name" = some (.jstr s)) ∧
    (jsTruthy ((getField m "category").getD .jnull) = false ∨
      ∃ s, (getField m "category").getD .jnull = .jstr s)

/-- The parsed content of the file, if any, has a category value whose
string coercion does not name an inherited `Object.prototype` member (on
which both scripts' bucket-creation guards misfire). -/
def safeCategoryKey (f : MetadataFile) : Prop :=
  ∀ m, f.parsed = some m →
    objectPrototypeKeys.contains
      (jsToString ((getField m "category").getD .jnull)) = false

/-- `t` is the maximum of the list `ts`. -/
def isMaxOf (t : Int) (ts : List Int) : Prop := t ∈ ts ∧ ∀ u ∈ ts, u ≤ t

/-- The name-projection used to state sortedness of app lists: the string
value of the `name` field (a placeholder for apps without one, which the
sortedness theorems exclude by hypothesis). -/
def strNameOf (a : JValue) : String :=
  match getField a "name" with
  | some (.jstr s) => s
  | _ => ""

/-- Apps `a`, `b` are in comparator order (the comparator does not place `a`
strictly after `b`). -/
def nameLe (cmp : String → String → Ordering) (a b : JValue) : Prop :=
  cmp (strNameOf a) (strNameOf b) ≠ .gt

/-- The pure comparator on apps corresponding to
`(a, b) => a.name.localeCompare(b.name)` once both names are strings. -/
def appNameCmp (cmp : String → String → Ordering) (a b : JValue) : Ordering :=
  cmp (strNameOf a) (strNameOf b)

/-! ## Concrete inputs used by the counterexamples and witnesses -/

/-- A clean git oracle: nothing dirty, every path's last commit at `50`,
clock at `999`. -/
def cleanGit : GitOracle := ⟨fun _ => .ok false, fun _ => .ok (some 50), 999⟩

/-- A git oracle whose status query reports every path dirty while history
still returns a commit timestamp `50`; clock at `100`. -/
def dirtyGit : GitOracle := ⟨fun _ => .ok true, fun _ => .ok (some 50), 100⟩

/-- A git oracle with clean status, last commit `100` for the Games release
file and `50` for every other path; clock at `999`. -/
def splitGit : GitOracle :=
  ⟨fun _ => .ok false,
   fun p => if p = "releases/category-games.json" then .ok (some 100)
            else .ok (some 50),
   999⟩

/-- A total, transitive sample comparator standing in for `localeCompare`:
compare the lengths of the two strings. -/
def lenCmp (a b : String) : Ordering := compare a.data.length b.data.length

/-- A fully valid metadata file for app `name` in category `cat`. -/
def sampleFile (name cat : String) : MetadataFile :=
  ⟨"repositories/o/r/" ++ name ++ "/metadata.json",
   "repositories/o/r/" ++ name,
   some (.jobj [("name", .jstr name), ("category", .jstr cat),
     ("description", .jstr "d"), ("version", .jstr "1.0"),
     ("commit", .jstr "c"), ("owner", .jstr "o"), ("repo", .jstr "r"),
     ("path", .jstr "p")])⟩

/-- A metadata file that parses but misses the required `version`, `commit`,
`owner`, `repo` and `path` fields. -/
def missingVersionFile : MetadataFile :=
  ⟨"repositories/o/r/bad/metadata.json", "repositories/o/r/bad",
   some (.jobj [("name", .jstr "bad"), ("category", .jstr "Games"),
     ("description", .jstr "d")])⟩

/-- A metadata file whose content does not parse as JSON. -/
def unparseableFile : MetadataFile :=
  ⟨"repositories/o/r/junk/metadata.json", "repositories/o/r/junk", none⟩

/-- A metadata file whose `category` is the number `5`: truthy, but not a
string. -/
def numericCategoryFile : MetadataFile :=
  ⟨"repositories/o/r/num/metadata.json", "repositories/o/r/num",
   some (.jobj [("name", .jstr "num"), ("category", .jnum 5)])⟩

/-- A valid metadata file except that `name` is the number `n`. -/
def numericNameFile (n : Int) : MetadataFile :=
  ⟨"repositories/o/r/n/metadata.json", "repositories/o/r/n",
   some (.jobj [("name", .jnum n), ("category", .jstr "G"),
     ("description", .jstr "d"), ("version", .jstr "1.0"),
     ("commit", .jstr "c"), ("owner", .jstr "o"), ("repo", .jstr "r"),
     ("path", .jstr "p")])⟩

/-! ## Projections of run outcomes (used to state concrete run facts) -/

/-- A git oracle with clean status and no history anywhere; clock at
`1234`. -/
def noHistGit : GitOracle := ⟨fun _ => .ok false, fun _ => .ok none, 1234⟩

/-- A git oracle whose subprocess fails on every query; clock at `77`. -/
def errGit : GitOracle := ⟨fun _ => .error (), fun _ => .error (), 77⟩

/-- Consolidated-script input holding only the metadata file with the
missing `version`. -/
def c1AllInput : GenAll.AllInput :=
  ⟨[missingVersionFile], cleanGit, 777, true, lenCmp⟩

/-- Releases-script input with one Games app, against `splitGit`. -/
def c2RelInput : GenRel.RelInput :=
  ⟨[sampleFile "app" "Games"], splitGit, fun _ => true, true, [], lenCmp⟩

/-- Releases-script input whose single category name contains a run of two
spaces. -/
def c3RelInput : GenRel.RelInput :=
  ⟨[sampleFile "x" "A  B"], cleanGit, fun _ => true, true, [], lenCmp⟩

/-- Consolidated-script input holding only the numeric-category file. -/
def crashAllInput : GenAll.AllInput :=
  ⟨[numericCategoryFile], cleanGit, 777, true, lenCmp⟩

/-- Releases-script input with two numeric-named apps in one category. -/
def crashRelInput : GenRel.RelInput :=
  ⟨[numericNameFile 1, numericNameFile 2], cleanGit, fun _ => true, true, [],
   lenCmp⟩

/-- A fully valid metadata file whose category is the string `toString`,
the name of an inherited `Object.prototype` member. -/
def protoCategoryFile : MetadataFile := sampleFile "proto" "toString"

/-- Releases-script input holding only the `toString`-category file. -/
def protoCrashRelInput : GenRel.RelInput :=
  ⟨[protoCategoryFile], cleanGit, fun _ => true, true, [], lenCmp⟩

/-- Consolidated-script input holding only the `toString`-category file. -/
def protoCrashAllInput : GenAll.AllInput :=
  ⟨[protoCategoryFile], cleanGit, 777, true, lenCmp⟩

/-- Releases-script input with two valid Games apps and one unparseable
file. -/
def typedRelInput : GenRel.RelInput :=
  ⟨[sampleFile "beta" "Games", sampleFile "al" "Games", unparseableFile],
   cleanGit, fun _ => true, true, [], lenCmp⟩

/-- Consolidated-script input with two valid apps, an unparseable file and
the field-incomplete (but well-typed) file. -/
def typedAllInput : GenAll.AllInput :=
  ⟨[sampleFile "beta" "Games", sampleFile "al" "Games", unparseableFile,
    missingVersionFile], cleanGit, 777, true, lenCmp⟩

/-- Releases-script input where writing `category-apps.json` and the
`categories.json` index both fail. -/
def failWriteRelInput : GenRel.RelInput :=
  ⟨[sampleFile "a" "Apps", sampleFile "b" "Tools"], cleanGit,
   fun n => n != "category-apps.json", false, [], lenCmp⟩

/-- Consolidated-script input whose aggregate write fails. -/
def failWriteAllInput : GenAll.AllInput :=
  ⟨[sampleFile "a" "Apps"], cleanGit, 777, false, lenCmp⟩

/-- Releases-script input with one Games app and a releases directory
holding the consolidated artifact, an obsolete release file, the index and
the current release file. -/
def c9RelInput : GenRel.RelInput :=
  ⟨[sampleFile "g" "Games"], cleanGit, fun _ => true, true,
   ["category-all.json", "category-old.json", "categories.json",
    "category-games.json"], lenCmp⟩

/-- Releases-script input with no discovered metadata files. -/
def c10RelInput : GenRel.RelInput :=
  ⟨[], cleanGit, fun _ => true, true, ["category-all.json"], lenCmp⟩

/-- Consolidated-script input with no discovered metadata files. -/
def c10AllInput : GenAll.AllInput := ⟨[], cleanGit, 7, true, lenCmp⟩

/-- The outcome of a releases-script run that is known to complete. -/
def relRun (inp : GenRel.RelInput) : GenRel.RelOutput :=
  (GenRel.relMain inp).toOption.getD ⟨[], [], none, [], 0⟩

/-- The outcome of a consolidated-script run that is known to complete. -/
def allRun (inp : GenAll.AllInput) : GenAll.AllOutput :=
  (GenAll.allMain inp).toOption.getD ⟨none, 0⟩

open GenRel GenAll in
/-- The `(name, slug, count, lastUpdated)` rows of the `categories.json`
index a completed `generate-releases.js` run wrote (empty if the run
crashed or wrote no index). -/
def relIndexRows (inp : RelInput) : List (String × String × Nat × Int) :=
  match relMain inp with
  | .ok o =>
    match o.indexWritten with
    | some i => i.categories.map (fun e => (e.name, e.slug, e.count,
        e.lastUpdated))
    | none => []
  | .error _ => []

open GenAll in
/-- All apps of the consolidated document a completed
`generate-category-all.json.js` run wrote, in category order. -/
def allWrittenApps (inp : AllInput) : List JValue :=
  match allMain inp with
  | .ok o =>
    match o.written with
    | some d => (d.categories.map (fun c => c.apps)).flatten
    | none => []
  | .error _ => []

/-! ## Character and slug lemmas -/

theorem char_le_iff_toNat {a b : Char} : a ≤ b ↔ a.toNat ≤ b.toNat := by
  rw [Char.le_def, UInt32.le_def, BitVec.le_def]
  rfl

theorem isLowerAlnum_toNat {c : Char} (h : isLowerAlnum c = true) :
    (97 ≤ c.toNat ∧ c.toNat ≤ 122) ∨ (48 ≤ c.toNat ∧ c.toNat ≤ 57) := by
  simp only [isLowerAlnum, Bool.or_eq_true, Bool.and_eq_true,
    decide_eq_true_eq] at h
  rcases h with ⟨h1, h2⟩ | ⟨h1, h2⟩ <;> rw [char_le_iff_toNat] at h1 h2
  · exact Or.inl ⟨h1, h2⟩
  · exact Or.inr ⟨h1, h2⟩

theorem toLower_of_isLowerAlnum {c : Char} (h : isLowerAlnum c = true) :
    c.toLower = c := by
  unfold Char.toLower
  have hnot : ¬(c.toNat ≥ 65 ∧ c.toNat ≤ 90) := by
    rcases isLowerAlnum_toNat h with ⟨h1, h2⟩ | ⟨h1, h2⟩ <;> omega
  simp only [ge_iff_le]
  split
  · next hc => exact absurd ⟨hc.1, hc.2⟩ hnot
  · rfl

theorem toLower_fix {c : Char} (h : isLowerAlnum c = true ∨ c = '-') :
    c.toLower = c := by
  rcases h with h | rfl
  · exact toLower_of_isLowerAlnum h
  · decide

theorem ne_hyphen_of_isLowerAlnum {c : Char} (h : isLowerAlnum c = true) :
    c ≠ '-' := by
  intro hc; subst hc; simp [isLowerAlnum] at h

theorem map_toLower_fix {l : List Char}
    (h : ∀ c ∈ l, isLowerAlnum c = true ∨ c = '-') :
    l.map Char.toLower = l := by
  induction l with
  | nil => rfl
  | cons c cs ih =>
    rw [List.map_cons, toLower_fix (h c (by simp)),
      ih (fun d hd => h d (by simp [hd]))]

theorem replaceNonAlnum_alphabet (c : Char) :
    isLowerAlnum (replaceNonAlnum c) = true ∨ replaceNonAlnum c = '-' := by
  unfold replaceNonAlnum
  split
  · next h => exact Or.inl h
  · exact Or.inr rfl

theorem replaceNonAlnum_fix {c : Char}
    (h : isLowerAlnum c = true ∨ c = '-') : replaceNonAlnum c = c := by
  rcases h with h | rfl
  · simp [replaceNonAlnum, h]
  · decide

theorem map_replaceNonAlnum_fix {l : List Char}
    (h : ∀ c ∈ l, isLowerAlnum c = true ∨ c = '-') :
    l.map replaceNonAlnum = l := by
  induction l with
  | nil => rfl
  | cons c cs ih =>
    rw [List.map_cons, replaceNonAlnum_fix (h c (by simp)),
      ih (fun d hd => h d (by simp [hd]))]

theorem mem_collapseReplace {c : Char} :
    ∀ {l : List Char}, c ∈ collapseReplace l →
      isLowerAlnum c = true ∨ c = '-' := by
  intro l
  induction l using collapseReplace.induct with
  | case1 => intro h; simp [collapseReplace] at h
  | case2 d cs hd ih =>
    intro h
    rw [collapseReplace, if_pos hd] at h
    rcases List.mem_cons.mp h with rfl | h
    · exact Or.inl hd
    · exact ih h
  | case3 d cs hd ih =>
    intro h
    rw [collapseReplace, if_neg hd] at h
    rcases List.mem_cons.mp h with rfl | h
    · exact Or.inr rfl
    · exact ih h

theorem dropWhile_shape (cs : List Char) :
    cs.dropWhile (fun d => !isLowerAlnum d) = [] ∨
      ∃ e es, cs.dropWhile (fun d => !isLowerAlnum d) = e :: es ∧
        isLowerAlnum e = true := by
  match h : cs.dropWhile (fun d => !isLowerAlnum d) with
  | [] => exact Or.inl rfl
  | e :: es =>
    refine Or.inr ⟨e, es, rfl, ?_⟩
    have := List.head?_dropWhile_not (fun d => !isLowerAlnum d) cs
    rw [h] at this
    simpa using this

theorem dropWhile_collapse_fix (cs : List Char) :
    (collapseReplace (cs.dropWhile (fun d => !isLowerAlnum d))).dropWhile
        (fun d => !isLowerAlnum d) =
      collapseReplace (cs.dropWhile (fun d => !isLowerAlnum d)) := by
  rcases dropWhile_shape cs with h | ⟨e, es, h, he⟩ <;> rw [h]
  · simp [collapseReplace]
  · rw [collapseReplace, if_pos he,
      List.dropWhile_cons_of_neg (by simp [he])]

theorem collapseReplace_idem (l : List Char) :
    collapseReplace (collapseReplace l) = collapseReplace l := by
  induction l using collapseReplace.induct with
  | case1 => simp [collapseReplace]
  | case2 c cs hc ih =>
    rw [collapseReplace, if_pos hc, collapseReplace, if_pos hc, ih]
  | case3 c cs hc ih =>
    rw [collapseReplace, if_neg hc, collapseReplace,
      if_neg (by decide : ¬isLowerAlnum '-' = true),
      dropWhile_collapse_fix, ih]

theorem squeezeHyphens_cons_of_ne {a : Char} (h : a ≠ '-') (m : List Char) :
    squeezeHyphens (a :: m) = a :: squeezeHyphens m := by
  cases m with
  | nil => rfl
  | cons b r =>
    rw [squeezeHyphens, if_neg]
    simp [h]

theorem squeezeHyphens_hyphen_drop (cs : List Char) :
    squeezeHyphens ('-' :: cs.map replaceNonAlnum) =
      squeezeHyphens ('-' ::
        (cs.dropWhile (fun d => !isLowerAlnum d)).map replaceNonAlnum) := by
  induction cs with
  | nil => rfl
  | cons d ds ih =>
    by_cases hd : isLowerAlnum d = true
    · rw [List.dropWhile_cons_of_neg]
      simp [hd]
    · have hrep : replaceNonAlnum d = '-' := by simp [replaceNonAlnum, hd]
      rw [List.map_cons, hrep, List.dropWhile_cons_of_pos (by simp [hd])]
      rw [squeezeHyphens, if_pos (by simp)]
      exact ih

theorem squeezeHyphens_hyphen_cons (m : List Char)
    (h : m = [] ∨ ∃ e es, m = e :: es ∧ isLowerAlnum e = true) :
    squeezeHyphens ('-' :: m.map replaceNonAlnum) =
      '-' :: squeezeHyphens (m.map replaceNonAlnum) := by
  rcases h with rfl | ⟨e, es, rfl, he⟩
  · rfl
  · have hrep : replaceNonAlnum e = e := by simp [replaceNonAlnum, he]
    rw [List.map_cons, hrep, squeezeHyphens, if_neg]
    simp [ne_hyphen_of_isLowerAlnum he]

theorem collapseReplace_eq_squeeze (l : List Char) :
    collapseReplace l = squeezeHyphens (l.map replaceNonAlnum) := by
  induction l using collapseReplace.induct with
  | case1 => simp [collapseReplace, squeezeHyphens]
  | case2 c cs hc ih =>
    rw [collapseReplace, if_pos hc, List.map_cons,
      show replaceNonAlnum c = c by simp [replaceNonAlnum, hc],
      squeezeHyphens_cons_of_ne (ne_hyphen_of_isLowerAlnum hc), ih]
  | case3 c cs hc ih =>
    rw [collapseReplace, if_neg hc, List.map_cons,
      show replaceNonAlnum c = '-' by
        simp only [replaceNonAlnum]; rw [if_neg hc],
      squeezeHyphens_hyphen_drop,
      squeezeHyphens_hyphen_cons _ (dropWhile_shape cs), ih]

theorem slugifyRel_eq_spec (s : String) : slugifyRel s = slugSpecPerChar s := by
  unfold slugifyRel slugSpecPerChar replaceNonAlnum
  rw [List.map_map]
  rfl

theorem slugifyAll_eq_spec (s : String) :
    slugifyAll s = slugSpecCollapse s := by
  unfold slugifyAll slugSpecCollapse slugSpecPerChar
  rw [collapseReplace_eq_squeeze, List.map_map]
  rfl

theorem slugifyAll_data (s : String) :
    (slugifyAll s).data = collapseReplace (s.data.map Char.toLower) := rfl

theorem slugifyRel_data (s : String) :
    (slugifyRel s).data =
      (s.data.map Char.toLower).map replaceNonAlnum := rfl

theorem slugifyRel_alphabet (s : String) :
    ∀ c ∈ (slugifyRel s).data, isLowerAlnum c = true ∨ c = '-' := by
  intro c hc
  rw [slugifyRel_data] at hc
  obtain ⟨d, _, rfl⟩ := List.mem_map.mp hc
  exact replaceNonAlnum_alphabet d

theorem slugifyAll_alphabet (s : String) :
    ∀ c ∈ (slugifyAll s).data, isLowerAlnum c = true ∨ c = '-' := by
  intro c hc
  rw [slugifyAll_data] at hc
  exact mem_collapseReplace hc

theorem slugifyRel_idem (s : String) :
    slugifyRel (slugifyRel s) = slugifyRel s := by
  have halpha := slugifyRel_alphabet s
  show String.mk (((slugifyRel s).data.map Char.toLower).map
    (fun c => if isLowerAlnum c then c else '-')) = slugifyRel s
  rw [map_toLower_fix halpha,
    show (fun c => if isLowerAlnum c then c else '-') = replaceNonAlnum
      from rfl,
    map_replaceNonAlnum_fix halpha]

theorem slugifyAll_idem (s : String) :
    slugifyAll (slugifyAll s) = slugifyAll s := by
  have halpha := slugifyAll_alphabet s
  show String.mk (collapseReplace ((slugifyAll s).data.map Char.toLower)) =
    slugifyAll s
  rw [map_toLower_fix halpha, slugifyAll_data, collapseReplace_idem]
  rfl

/-! ## Object field lemmas -/

theorem find?_map_replace_ne (fs : List (String × JValue)) (k : String)
    (v : JValue) (k' : String) (h : k' ≠ k) :
    (fs.map (fun p => if p.1 = k then (k, v) else p)).find?
        (fun p => p.1 = k') =
      fs.find? (fun p => p.1 = k') := by
  induction fs with
  | nil => rfl
  | cons q qs ih =>
    by_cases hq : q.1 = k
    · have e1 : (decide ((k, v).1 = k')) = false := by simp [Ne.symm h]
      have e2 : (decide (q.1 = k')) = false := by
        simp only [decide_eq_false_iff_not]
        rw [hq]
        exact Ne.symm h
      rw [List.map_cons, if_pos hq]
      simp only [List.find?_cons, e1, e2]
      exact ih
    · rw [List.map_cons, if_neg hq]
      simp only [List.find?_cons]
      cases hd : decide (q.1 = k')
      · exact ih
      · rfl

theorem find?_append_single_ne (fs : List (String × JValue)) (k : String)
    (v : JValue) (k' : String) (h : k' ≠ k) :
    (fs ++ [(k, v)]).find? (fun p => p.1 = k') =
      fs.find? (fun p => p.1 = k') := by
  induction fs with
  | nil =>
    have e1 : (decide ((k, v).1 = k')) = false := by simp [Ne.symm h]
    simp only [List.nil_append, List.find?_cons, e1]
  | cons q qs ih =>
    rw [List.cons_append]
    simp only [List.find?_cons]
    cases hd : decide (q.1 = k')
    · exact ih
    · rfl

theorem getField_jobj (fs : List (String × JValue)) (k : String) :
    getField (.jobj fs) k =
      (fs.find? (fun p => p.1 = k)).map (fun p => p.2) := rfl

theorem getField_setKey_ne (fs : List (String × JValue)) (k : String)
    (v : JValue) (k' : String) (h : k' ≠ k) :
    getField (.jobj (setKey fs k v)) k' = getField (.jobj fs) k' := by
  rw [getField_jobj, getField_jobj]
  unfold setKey
  split
  · rw [find?_map_replace_ne fs k v k' h]
  · rw [find?_append_single_ne fs k v k' h]

theorem find?_map_replace_self (fs : List (String × JValue)) (k : String)
    (v : JValue) (hany : fs.any (fun p => p.1 = k) = true) :
    (fs.map (fun p => if p.1 = k then (k, v) else p)).find?
        (fun p => p.1 = k) = some (k, v) := by
  induction fs with
  | nil => simp at hany
  | cons q qs ih =>
    by_cases hq : q.1 = k
    · rw [List.map_cons, if_pos hq]
      simp only [List.find?_cons, decide_True]
    · have e2 : (decide (q.1 = k)) = false := by simp [hq]
      rw [List.map_cons, if_neg hq]
      simp only [List.find?_cons, e2]
      refine ih ?_
      simp only [List.any_cons, Bool.or_eq_true] at hany
      rcases hany with h1 | h1
      · exact absurd (by simpa using h1) hq
      · exact h1

theorem find?_append_single_self (fs : List (String × JValue)) (k : String)
    (v : JValue) (hnone : fs.any (fun p => p.1 = k) = false) :
    (fs ++ [(k, v)]).find? (fun p => p.1 = k) = some (k, v) := by
  induction fs with
  | nil =>
    simp only [List.nil_append, List.find?_cons, decide_True]
  | cons q qs ih =>
    simp only [List.any_cons, Bool.or_eq_false_iff] at hnone
    have e2 : (decide (q.1 = k)) = false := hnone.1
    rw [List.cons_append]
    simp only [List.find?_cons, e2]
    exact ih hnone.2

theorem getField_setKey_self (fs : List (String × JValue)) (k : String)
    (v : JValue) :
    getField (.jobj (setKey fs k v)) k = some v := by
  rw [getField_jobj]
  unfold setKey
  split
  · next hany => rw [find?_map_replace_self fs k v hany]; rfl
  · next hany =>
    rw [find?_append_single_self fs k v (Bool.eq_false_iff.mpr hany)]
    rfl

theorem find?_filter_of {p q : (String × JValue) → Bool}
    (l : List (String × JValue)) (h : ∀ x ∈ l, p x = true → q x = true) :
    (l.filter q).find? p = l.find? p := by
  induction l with
  | nil => rfl
  | cons x xs ih =>
    by_cases hx : q x = true
    · rw [List.filter_cons_of_pos hx]
      simp only [List.find?_cons]
      cases hd : p x
      · exact ih (fun y hy => h y (by simp [hy]))
      · rfl
    · have hp : p x = false := by
        cases hpx : p x
        · rfl
        · exact absurd (h x (by simp) hpx) hx
      rw [List.filter_cons_of_neg (by simpa using hx)]
      simp only [List.find?_cons, hp]
      exact ih (fun y hy => h y (by simp [hy]))

/-! ## Sorting lemmas -/

theorem jsToString_jstr (s : String) : jsToString (.jstr s) = s := rfl

theorem insertOrd_perm (f : α → α → Ordering) (x : α) (l : List α) :
    List.Perm (insertOrd f x l) (x :: l) := by
  induction l with
  | nil => exact List.Perm.refl _
  | cons y ys ih =>
    unfold insertOrd
    split
    · exact (ih.cons y).trans (List.Perm.swap x y ys)
    · exact List.Perm.refl _

theorem sortOrd_perm (f : α → α → Ordering) (l : List α) :
    List.Perm (sortOrd f l) l := by
  induction l with
  | nil => exact List.Perm.refl _
  | cons x xs ih =>
    exact (insertOrd_perm f x (sortOrd f xs)).trans (ih.cons x)

theorem insertOrd_pairwise (f : α → α → Ordering)
    (hasym : ∀ a b, f a b = .gt → f b a ≠ .gt)
    (htrans : ∀ a b c, f a b ≠ .gt → f b c ≠ .gt → f a c ≠ .gt)
    (x : α) {l : List α} (hl : l.Pairwise (fun a b => f a b ≠ .gt)) :
    (insertOrd f x l).Pairwise (fun a b => f a b ≠ .gt) := by
  induction l with
  | nil => simp [insertOrd]
  | cons y ys ih =>
    obtain ⟨hy, hys⟩ := List.pairwise_cons.mp hl
    unfold insertOrd
    split
    · next hgt =>
      refine List.pairwise_cons.mpr ⟨?_, ih hys⟩
      intro z hz
      rcases List.mem_cons.mp ((insertOrd_perm f x ys).mem_iff.mp hz) with
        rfl | hz'
      · exact hasym _ _ hgt
      · exact hy z hz'
    · next hng =>
      refine List.pairwise_cons.mpr ⟨?_, List.pairwise_cons.mpr ⟨hy, hys⟩⟩
      intro z hz
      rcases List.mem_cons.mp hz with rfl | hz'
      · exact hng
      · exact htrans x y z hng (hy z hz')

theorem sortOrd_pairwise (f : α → α → Ordering)
    (hasym : ∀ a b, f a b = .gt → f b a ≠ .gt)
    (htrans : ∀ a b c, f a b ≠ .gt → f b c ≠ .gt → f a c ≠ .gt)
    (l : List α) :
    (sortOrd f l).Pairwise (fun a b => f a b ≠ .gt) := by
  induction l with
  | nil => simp [sortOrd]
  | cons x xs ih =>
    exact insertOrd_pairwise f hasym htrans x ih

theorem insertSortedE_perm {cmpE : α → α → Except Unit Ordering} {x : α} :
    ∀ {l r : List α}, insertSortedE cmpE x l = .ok r → List.Perm r (x :: l) := by
  intro l
  induction l with
  | nil =>
    intro r h
    obtain rfl : [x] = r := by simpa [insertSortedE] using h
    exact List.Perm.refl _
  | cons y ys ih =>
    intro r h
    rw [insertSortedE] at h
    cases hc : cmpE x y with
    | error e => rw [hc] at h; exact absurd h (by simp)
    | ok o =>
      rw [hc] at h
      cases o with
      | gt =>
        simp only at h
        cases hr : insertSortedE cmpE x ys with
        | error e => rw [hr] at h; exact absurd h (by simp)
        | ok r2 =>
          rw [hr] at h
          obtain rfl : y :: r2 = r := by simpa using h
          exact ((ih hr).cons y).trans (List.Perm.swap x y ys)
      | lt =>
        obtain rfl : x :: y :: ys = r := by simpa using h
        exact List.Perm.refl _
      | eq =>
        obtain rfl : x :: y :: ys = r := by simpa using h
        exact List.Perm.refl _

theorem sortByE_perm {cmpE : α → α → Except Unit Ordering} :
    ∀ {l r : List α}, sortByE cmpE l = .ok r → List.Perm r l := by
  intro l
  induction l with
  | nil =>
    intro r h
    obtain rfl : ([] : List α) = r := by simpa [sortByE] using h
    exact List.Perm.refl _
  | cons x xs ih =>
    intro r h
    rw [sortByE] at h
    cases hs : sortByE cmpE xs with
    | error e => rw [hs] at h; exact absurd h (by simp)
    | ok r2 =>
      rw [hs] at h
      exact (insertSortedE_perm h).trans ((ih hs).cons x)

theorem insertSortedE_eq {cmpE : α → α → Except Unit Ordering}
    {f : α → α → Ordering} {x : α} :
    ∀ {l : List α}, (∀ b ∈ l, cmpE x b = .ok (f x b)) →
      insertSortedE cmpE x l = .ok (insertOrd f x l) := by
  intro l
  induction l with
  | nil => intro _; rfl
  | cons y ys ih =>
    intro h
    rw [insertSortedE, h y (by simp), insertOrd]
    cases hf : f x y with
    | gt =>
      simp only [hf]
      rw [ih (fun b hb => h b (by simp [hb]))]
      simp
    | lt => simp [hf]
    | eq => simp [hf]

theorem sortByE_eq_sortOrd {cmpE : α → α → Except Unit Ordering}
    {f : α → α → Ordering} :
    ∀ {l : List α}, (∀ a ∈ l, ∀ b ∈ l, cmpE a b = .ok (f a b)) →
      sortByE cmpE l = .ok (sortOrd f l) := by
  intro l
  induction l with
  | nil => intro _; rfl
  | cons x xs ih =>
    intro h
    rw [sortByE, ih (fun a ha b hb => h a (by simp [ha]) b (by simp [hb])),
      sortOrd]
    exact insertSortedE_eq (fun b hb =>
      h x (by simp) b
        (List.mem_cons_of_mem x ((sortOrd_perm f xs).mem_iff.mp hb)))

theorem localeCompareApp_ok (cmp : String → String → Ordering) {a b : JValue}
    (ha : ∃ s, getField a "name" = some (.jstr s))
    (hb : ∃ t, getField b "name" = some (.jstr t)) :
    localeCompareApp cmp a b = .ok (appNameCmp cmp a b) := by
  obtain ⟨s, hs⟩ := ha
  obtain ⟨t, ht⟩ := hb
  unfold localeCompareApp appNameCmp strNameOf jsToStringOpt
  rw [hs, ht]
  rfl


/-! ## Lemmas about `generate-releases.js` -/

namespace GenRel

theorem loadMetadata_shape {f : MetadataFile} {m : JValue}
    (h : loadMetadata f = some m) :
    ∃ fs, f.parsed = some (.jobj fs) ∧
      m = .jobj (setKey fs "filePath" (.jstr (f.dirPath.replace "\\" "/"))) ∧
      ∀ k ∈ requiredFields, fieldAbsentOrEmpty (.jobj fs) k = false := by
  cases hp : f.parsed with
  | none => simp only [loadMetadata, hp] at h; exact absurd h (by simp)
  | some m0 =>
    cases m0 with
    | jobj fs =>
      simp only [loadMetadata, hp] at h
      refine ⟨fs, rfl, ?_⟩
      by_cases hreq :
          (requiredFields.any (fun k => fieldAbsentOrEmpty (.jobj fs) k)) =
            true
      · rw [if_pos hreq] at h
        exact absurd h (by simp)
      · rw [if_neg hreq] at h
        refine ⟨((Option.some.injEq _ _).mp h).symm, ?_⟩
        intro k hk
        have hfalse := Bool.eq_false_iff.mpr hreq
        rw [List.any_eq_false] at hfalse
        exact Bool.eq_false_iff.mpr (hfalse _ hk)
    | jnull => simp only [loadMetadata, hp] at h; exact absurd h (by simp)
    | jbool b => simp only [loadMetadata, hp] at h; exact absurd h (by simp)
    | jnum n => simp only [loadMetadata, hp] at h; exact absurd h (by simp)
    | jstr s => simp only [loadMetadata, hp] at h; exact absurd h (by simp)
    | jarr xs => simp only [loadMetadata, hp] at h; exact absurd h (by simp)

theorem mem_requiredFields_ne_filePath {k : String}
    (hk : k ∈ requiredFields) : k ≠ "filePath" := by
  intro heq
  subst heq
  exact absurd hk (by decide)

theorem loadMetadata_required {f : MetadataFile} {m : JValue}
    (h : loadMetadata f = some m) :
    ∀ k ∈ requiredFields, fieldAbsentOrEmpty m k = false := by
  obtain ⟨fs, _, rfl, hall⟩ := loadMetadata_shape h
  intro k hk
  have hne := mem_requiredFields_ne_filePath hk
  have := hall k hk
  unfold fieldAbsentOrEmpty at this ⊢
  rw [getField_setKey_ne fs "filePath" _ k hne]
  exact this

theorem loadMetadata_getField {f : MetadataFile} {m : JValue} {fs : List (String × JValue)}
    (h : loadMetadata f = some m) (hp : f.parsed = some (.jobj fs))
    {k : String} (hk : k ≠ "filePath") :
    getField m k = getField (.jobj fs) k := by
  obtain ⟨fs', hp', rfl, _⟩ := loadMetadata_shape h
  rw [hp] at hp'
  obtain rfl : fs = fs' := by
    have := (Option.some.injEq _ _).mp hp'
    exact (JValue.jobj.injEq _ _).mp this
  exact getField_setKey_ne fs "filePath" _ k hk

theorem addToCategory_mem {acc : List (String × List JValue)} {key : String}
    {x : JValue} {out : List (String × List JValue)}
    (h : addToCategory acc key x = .ok out)
    {p : String × List JValue} {a : JValue} (hp : p ∈ out) (ha : a ∈ p.2) :
    (∃ q ∈ acc, a ∈ q.2) ∨ a = x := by
  unfold addToCategory at h
  split at h
  · obtain rfl := ((Except.ok.injEq _ _).mp h).symm
    obtain ⟨q, hq, rfl⟩ := List.mem_map.mp hp
    by_cases hqk : q.1 = key
    · rw [if_pos hqk] at ha
      rcases List.mem_append.mp ha with ha' | ha'
      · exact Or.inl ⟨q, hq, ha'⟩
      · exact Or.inr (by simpa using ha')
    · rw [if_neg hqk] at ha
      exact Or.inl ⟨q, hq, ha⟩
  · split at h
    · exact absurd h (by simp)
    · obtain rfl := ((Except.ok.injEq _ _).mp h).symm
      rcases List.mem_append.mp hp with hq | hq
      · exact Or.inl ⟨p, hq, ha⟩
      · obtain rfl : p = (key, [x]) := by simpa using hq
        exact Or.inr (by simpa using ha)

theorem addToCategory_ok {acc : List (String × List JValue)} {key : String}
    {x : JValue} (hk : objectPrototypeKeys.contains key = false) :
    ∃ out, addToCategory acc key x = .ok out := by
  unfold addToCategory
  split
  · exact ⟨_, rfl⟩
  · rw [if_neg (by rw [hk]; simp)]
    exact ⟨_, rfl⟩

theorem categorizeAux_mem (P : JValue → Prop) :
    ∀ (files : List MetadataFile) (acc out : List (String × List JValue)),
      categorizeAux acc files = .ok out →
      (∀ p ∈ acc, ∀ a ∈ p.2, P a) →
      (∀ f ∈ files, ∀ m, loadMetadata f = some m → P m) →
      ∀ p ∈ out, ∀ a ∈ p.2, P a := by
  intro files
  induction files with
  | nil =>
    intro acc out h hacc _ p hp a ha
    rw [categorizeAux] at h
    obtain rfl := ((Except.ok.injEq _ _).mp h).symm
    exact hacc p hp a ha
  | cons f fs ih =>
    intro acc out h hacc hfiles p hp a ha
    rw [categorizeAux] at h
    cases hl : loadMetadata f with
    | none =>
      simp only [hl] at h
      exact ih acc out h hacc (fun g hg m hm => hfiles g (by simp [hg]) m hm)
        p hp a ha
    | some m =>
      simp only [hl] at h
      cases hadd : addToCategory acc
          (jsToString ((getField m "category").getD .jnull)) m with
      | error e => simp only [hadd] at h; exact absurd h (by simp)
      | ok acc1 =>
        simp only [hadd] at h
        refine ih acc1 out h ?_
          (fun g hg m' hm' => hfiles g (by simp [hg]) m' hm') p hp a ha
        intro q hq b hb
        rcases addToCategory_mem hadd hq hb with ⟨q', hq', hb'⟩ | rfl
        · exact hacc q' hq' b hb'
        · exact hfiles f (by simp) b hl

theorem categorize_mem {files : List MetadataFile}
    {cats : List (String × List JValue)}
    (hc : categorize files = .ok cats)
    {p : String × List JValue} {a : JValue} (hp : p ∈ cats) (ha : a ∈ p.2) :
    ∃ f ∈ files, loadMetadata f = some a :=
  categorizeAux_mem (fun a => ∃ f ∈ files, loadMetadata f = some a) files []
    cats hc (by simp) (fun f hf m hm => ⟨f, hf, hm⟩) p hp a ha

theorem categorizeAux_ok :
    ∀ {files : List MetadataFile},
      (∀ f ∈ files, ∀ m, loadMetadata f = some m →
        objectPrototypeKeys.contains
          (jsToString ((getField m "category").getD .jnull)) = false) →
      ∀ acc, ∃ out, categorizeAux acc files = .ok out := by
  intro files
  induction files with
  | nil => exact fun _ acc => ⟨acc, rfl⟩
  | cons f fs ih =>
    intro h acc
    cases hl : loadMetadata f with
    | none =>
      obtain ⟨out, hout⟩ := ih (fun g hg m hm => h g (by simp [hg]) m hm) acc
      refine ⟨out, ?_⟩
      rw [categorizeAux]
      simp only [hl]
      exact hout
    | some m =>
      obtain ⟨acc1, hacc1⟩ := @addToCategory_ok acc
        (jsToString ((getField m "category").getD .jnull)) m
        (h f (by simp) m hl)
      obtain ⟨out, hout⟩ :=
        ih (fun g hg m' hm' => h g (by simp [hg]) m' hm') acc1
      refine ⟨out, ?_⟩
      rw [categorizeAux]
      simp only [hl, hacc1]
      exact hout

theorem categorizedApps_eq {files : List MetadataFile}
    {cats : List (String × List JValue)}
    (hc : categorize files = .ok cats) : categorizedApps files = cats := by
  unfold categorizedApps
  rw [hc]
  rfl

theorem processCategories_parts {cmp : String → String → Ordering}
    {wOk : String → Bool} :
    ∀ {cats : List (String × List JValue)}
      {ws : List ReleaseFile} {names cs : List String},
      processCategories cmp wOk cats = .ok (ws, names, cs) →
      names = (cats.map (fun p =>
          "category-" ++ slugifyRel p.1 ++ ".json")).filter wOk ∧
      cs = (cats.map (fun p => p.1)).filter
          (fun c => wOk ("category-" ++ slugifyRel c ++ ".json")) := by
  intro cats
  induction cats with
  | nil =>
    intro ws names cs h
    obtain ⟨rfl, rfl, rfl⟩ : ([] : List ReleaseFile) = ws ∧
        ([] : List String) = names ∧ ([] : List String) = cs := by
      simpa [processCategories, Prod.ext_iff] using h
    simp
  | cons p rest ih =>
    intro ws names cs h
    rw [processCategories] at h
    cases hs : sortByE (localeCompareApp cmp) p.2 with
    | error e => simp only [hs] at h; exact absurd h (by simp)
    | ok sorted =>
      simp only [hs] at h
      cases hr : processCategories cmp wOk rest with
      | error e => simp only [hr] at h; exact absurd h (by simp)
      | ok out =>
        obtain ⟨ws', names', cs'⟩ := out
        simp only [hr] at h
        obtain ⟨hn', hc'⟩ := ih hr
        by_cases hw : wOk ("category-" ++ slugifyRel p.1 ++ ".json") = true
        · rw [if_pos hw] at h
          obtain ⟨rfl, rfl, rfl⟩ : _ ∧ _ ∧ _ := by
            simpa [Prod.ext_iff] using h
          constructor
          · simp [hn', hw]
          · simp [hc', hw]
        · rw [if_neg hw] at h
          obtain ⟨rfl, rfl, rfl⟩ : _ ∧ _ ∧ _ := by
            simpa [Prod.ext_iff] using h
          have hw' : wOk ("category-" ++ slugifyRel p.1 ++ ".json") = false :=
            Bool.eq_false_iff.mpr hw
          constructor
          · simp [hn', hw']
          · simp [hc', hw']

theorem processCategories_written {cmp : String → String → Ordering}
    {wOk : String → Bool} :
    ∀ {cats : List (String × List JValue)}
      {ws : List ReleaseFile} {names cs : List String},
      processCategories cmp wOk cats = .ok (ws, names, cs) →
      ∀ rf ∈ ws, ∃ cat apps, (cat, apps) ∈ cats ∧
        ∃ sorted, sortByE (localeCompareApp cmp) apps = .ok sorted ∧
          rf.fileName = "category-" ++ slugifyRel cat ++ ".json" ∧
          rf.category = cat ∧ rf.count = apps.length ∧
          rf.apps = sorted.map cleanApp := by
  intro cats
  induction cats with
  | nil =>
    intro ws names cs h rf hrf
    obtain ⟨rfl, _, _⟩ : ([] : List ReleaseFile) = ws ∧
        ([] : List String) = names ∧ ([] : List String) = cs := by
      simpa [processCategories, Prod.ext_iff] using h
    simp at hrf
  | cons p rest ih =>
    intro ws names cs h rf hrf
    rw [processCategories] at h
    cases hs : sortByE (localeCompareApp cmp) p.2 with
    | error e => simp only [hs] at h; exact absurd h (by simp)
    | ok sorted =>
      simp only [hs] at h
      cases hr : processCategories cmp wOk rest with
      | error e => simp only [hr] at h; exact absurd h (by simp)
      | ok out =>
        obtain ⟨ws', names', cs'⟩ := out
        simp only [hr] at h
        by_cases hw : wOk ("category-" ++ slugifyRel p.1 ++ ".json") = true
        · rw [if_pos hw] at h
          obtain ⟨hws, _, _⟩ : _ ∧ _ ∧ _ := by
            simpa [Prod.ext_iff] using h
          rw [← hws] at hrf
          rcases List.mem_cons.mp hrf with rfl | hrf'
          · exact ⟨p.1, p.2, by simp, sorted, hs, rfl, rfl, rfl, rfl⟩
          · obtain ⟨cat, apps, hmem, hrest⟩ := ih hr rf hrf'
            exact ⟨cat, apps, by simp [hmem], hrest⟩
        · rw [if_neg hw] at h
          obtain ⟨hws, _, _⟩ : _ ∧ _ ∧ _ := by
            simpa [Prod.ext_iff] using h
          rw [← hws] at hrf
          obtain ⟨cat, apps, hmem, hrest⟩ := ih hr rf hrf
          exact ⟨cat, apps, by simp [hmem], hrest⟩

theorem processCategories_ok {cmp : String → String → Ordering}
    {wOk : String → Bool} :
    ∀ {cats : List (String × List JValue)},
      (∀ p ∈ cats, ∃ r, sortByE (localeCompareApp cmp) p.2 = .ok r) →
      ∃ out, processCategories cmp wOk cats = .ok out := by
  intro cats
  induction cats with
  | nil => exact fun _ => ⟨([], [], []), rfl⟩
  | cons p rest ih =>
    intro h
    obtain ⟨r, hr⟩ := h p (by simp)
    obtain ⟨⟨ws', names', cs'⟩, hrest⟩ :=
      ih (fun q hq => h q (by simp [hq]))
    rw [processCategories]
    simp only [hr, hrest]
    by_cases hw : wOk ("category-" ++ slugifyRel p.1 ++ ".json") = true
    · rw [if_pos hw]
      exact ⟨_, rfl⟩
    · rw [if_neg hw]
      exact ⟨_, rfl⟩

theorem relMain_ok_parts {inp : RelInput} {out : RelOutput}
    (h : relMain inp = .ok out) (hne : ¬inp.files.length = 0) :
    ∃ categorized ws names cs,
      categorize inp.files = .ok categorized ∧
      processCategories inp.cmp inp.writeReleaseOk categorized =
        .ok (ws, names, cs) ∧
      out = ⟨ws, names, buildIndex inp categorized cs,
        staleRemoved inp.existingFiles names, 0⟩ := by
  unfold relMain at h
  rw [if_neg hne] at h
  cases hc : categorize inp.files with
  | error e => simp only [hc] at h; exact absurd h (by simp)
  | ok categorized =>
    simp only [hc] at h
    cases hp : processCategories inp.cmp inp.writeReleaseOk categorized with
    | error e => simp only [hp] at h; exact absurd h (by simp)
    | ok out0 =>
      obtain ⟨ws, names, cs⟩ := out0
      simp only [hp] at h
      exact ⟨categorized, ws, names, cs, rfl, hp,
        ((Except.ok.injEq _ _).mp h).symm⟩

theorem relMain_exitCode_zero {inp : RelInput} {out : RelOutput}
    (h : relMain inp = .ok out) : out.exitCode = 0 := by
  unfold relMain at h
  split at h
  · obtain rfl := (Except.ok.injEq _ _).mp h
    rfl
  · cases hc : categorize inp.files with
    | error e => simp only [hc] at h; exact absurd h (by simp)
    | ok categorized =>
      simp only [hc] at h
      cases hp : processCategories inp.cmp inp.writeReleaseOk categorized with
      | error e => simp only [hp] at h; exact absurd h (by simp)
      | ok out0 =>
        obtain ⟨ws, names, cs⟩ := out0
        simp only [hp] at h
        obtain rfl := (Except.ok.injEq _ _).mp h
        rfl

theorem buildIndex_mem {inp : RelInput}
    {categorized : List (String × List JValue)} {cats : List String}
    {idx : CategoriesIndex} (h : buildIndex inp categorized cats = some idx) :
    ∀ e ∈ idx.categories, e = indexEntry inp.git categorized e.name := by
  unfold buildIndex at h
  split at h
  · split at h
    · obtain rfl := (Option.some.injEq _ _).mp h
      intro e he
      have hmem := (sortOrd_perm _ _).mem_iff.mp he
      obtain ⟨c, _, rfl⟩ := List.mem_map.mp hmem
      rfl
    · exact absurd h (by simp)
  · exact absurd h (by simp)

theorem buildIndex_sorted {inp : RelInput}
    {categorized : List (String × List JValue)} {cats : List String}
    {idx : CategoriesIndex} (h : buildIndex inp categorized cats = some idx)
    (hasym : ∀ a b, inp.cmp a b = .gt → inp.cmp b a ≠ .gt)
    (htrans : ∀ a b c, inp.cmp a b ≠ .gt → inp.cmp b c ≠ .gt →
      inp.cmp a c ≠ .gt) :
    idx.categories.Pairwise (fun a b => inp.cmp a.name b.name ≠ .gt) := by
  unfold buildIndex at h
  split at h
  · split at h
    · obtain rfl := (Option.some.injEq _ _).mp h
      exact sortOrd_pairwise _ (fun a b => hasym a.name b.name)
        (fun a b c => htrans a.name b.name c.name) _
    · exact absurd h (by simp)
  · exact absurd h (by simp)

end GenRel

/-! ## Lemmas about `generate-category-all.json.js` -/

namespace GenAll

theorem readAllMetadataFiles_mem {git : GitOracle} :
    ∀ {files : List MetadataFile} {a : JValue},
      a ∈ readAllMetadataFiles git files →
      ∃ f ∈ files, ∃ m, f.parsed = some m ∧ a = mkApp git f m := by
  intro files
  induction files with
  | nil => intro a ha; simp [readAllMetadataFiles] at ha
  | cons f fs ih =>
    intro a ha
    rw [readAllMetadataFiles] at ha
    cases hp : f.parsed with
    | none =>
      rw [hp] at ha
      obtain ⟨g, hg, hrest⟩ := ih ha
      exact ⟨g, by simp [hg], hrest⟩
    | some m =>
      rw [hp] at ha
      rcases List.mem_cons.mp ha with rfl | ha'
      · exact ⟨f, by simp, m, hp, rfl⟩
      · obtain ⟨g, hg, hrest⟩ := ih ha'
        exact ⟨g, by simp [hg], hrest⟩

theorem readAllMetadataFiles_length (git : GitOracle) :
    ∀ files : List MetadataFile,
      (readAllMetadataFiles git files).length =
        (files.filter (fun f => f.parsed.isSome)).length := by
  intro files
  induction files with
  | nil => rfl
  | cons f fs ih =>
    rw [readAllMetadataFiles]
    cases hp : f.parsed with
    | none => rw [List.filter_cons_of_neg (by simp [hp])]; exact ih
    | some m =>
      rw [List.filter_cons_of_pos (by simp [hp]), List.length_cons,
        List.length_cons, ih]

theorem mkApp_lastUpdated (git : GitOracle) (f : MetadataFile) (m : JValue) :
    getField (mkApp git f m) "lastUpdated" =
      some (.jnum (getLastCommitTimestampForMetadataFile git f.relPath)) := by
  unfold mkApp
  rw [getField_setKey_ne _ "metadataPath" _ "lastUpdated" (by decide)]
  exact getField_setKey_self _ "lastUpdated" _

theorem appLastUpdated_mkApp (git : GitOracle) (f : MetadataFile)
    (m : JValue) :
    appLastUpdated (mkApp git f m) =
      getLastCommitTimestampForMetadataFile git f.relPath := by
  unfold appLastUpdated
  rw [mkApp_lastUpdated]

theorem mkApp_getField (git : GitOracle) (f : MetadataFile)
    (fs : List (String × JValue)) {k : String}
    (h1 : k ≠ "slug") (h2 : k ≠ "lastUpdated") (h3 : k ≠ "metadataPath") :
    getField (mkApp git f (.jobj fs)) k = getField (.jobj fs) k := by
  unfold mkApp
  rw [getField_setKey_ne _ "metadataPath" _ k h3,
    getField_setKey_ne _ "lastUpdated" _ k h2,
    getField_setKey_ne _ "slug" _ k h1]

theorem addApp_mem {acc : List CategoryData} {app : JValue}
    {acc' : List CategoryData} (h : addApp acc app = .ok acc')
    {c : CategoryData} {a : JValue} (hc : c ∈ acc') (ha : a ∈ c.apps) :
    (∃ c0 ∈ acc, a ∈ c0.apps) ∨ a = app := by
  unfold addApp at h
  split at h
  · obtain rfl := (Except.ok.injEq _ _).mp h
    obtain ⟨c0, hc0, rfl⟩ := List.mem_map.mp hc
    split at ha
    · simp only at ha
      rcases List.mem_append.mp ha with ha' | ha'
      · exact Or.inl ⟨c0, hc0, ha'⟩
      · exact Or.inr (by simpa using ha')
    · exact Or.inl ⟨c0, hc0, ha⟩
  · split at h
    · exact absurd h (by simp)
    · split at h
      · next s heq =>
        obtain rfl := (Except.ok.injEq _ _).mp h
        rcases List.mem_append.mp hc with hc' | hc'
        · exact Or.inl ⟨c, hc', ha⟩
        · obtain rfl : c = ⟨s, slugifyAll s, 1, [app]⟩ := by simpa using hc'
          exact Or.inr (by simpa using ha)
      · exact absurd h (by simp)

theorem addApp_pred {Q : CategoryData → Prop}
    (hQglue : ∀ c : CategoryData, ∀ app : JValue, Q c →
      Q { c with count := c.count + 1, apps := c.apps ++ [app] })
    (hQnew : ∀ s : String, ∀ app : JValue, Q ⟨s, slugifyAll s, 1, [app]⟩)
    {acc : List CategoryData} {app : JValue} {acc' : List CategoryData}
    (h : addApp acc app = .ok acc') (hacc : ∀ c ∈ acc, Q c) :
    ∀ c ∈ acc', Q c := by
  unfold addApp at h
  split at h
  · obtain rfl := (Except.ok.injEq _ _).mp h
    intro c hc
    obtain ⟨c0, hc0, rfl⟩ := List.mem_map.mp hc
    split
    · exact hQglue c0 app (hacc c0 hc0)
    · exact hacc c0 hc0
  · split at h
    · exact absurd h (by simp)
    · split at h
      · next s heq =>
        obtain rfl := (Except.ok.injEq _ _).mp h
        intro c hc
        rcases List.mem_append.mp hc with hc' | hc'
        · exact hacc c hc'
        · obtain rfl : c = ⟨s, slugifyAll s, 1, [app]⟩ := by simpa using hc'
          exact hQnew s app
      · exact absurd h (by simp)

theorem categoryValue_jstr {app : JValue}
    (h : jsTruthy ((getField app "category").getD .jnull) = false ∨
      ∃ s, (getField app "category").getD .jnull = .jstr s) :
    ∃ s, categoryValue app = .jstr s := by
  unfold categoryValue
  rcases h with h | ⟨s, hs⟩
  · rw [if_neg (by simp [h])]
    exact ⟨"Uncategorized", rfl⟩
  · by_cases ht : jsTruthy ((getField app "category").getD .jnull) = true
    · rw [if_pos ht, hs]
      exact ⟨s, rfl⟩
    · rw [if_neg ht]
      exact ⟨"Uncategorized", rfl⟩

theorem categoryValue_keysafe {app : JValue}
    (h : objectPrototypeKeys.contains
      (jsToString ((getField app "category").getD .jnull)) = false) :
    objectPrototypeKeys.contains (jsToString (categoryValue app)) = false := by
  unfold categoryValue
  by_cases ht : jsTruthy ((getField app "category").getD .jnull) = true
  · rw [if_pos ht]
    exact h
  · rw [if_neg ht]
    decide

theorem addApp_ok {acc : List CategoryData} {app : JValue}
    (h : jsTruthy ((getField app "category").getD .jnull) = false ∨
      ∃ s, (getField app "category").getD .jnull = .jstr s)
    (hk : objectPrototypeKeys.contains
      (jsToString (categoryValue app)) = false) :
    ∃ acc', addApp acc app = .ok acc' := by
  obtain ⟨s, hs⟩ := categoryValue_jstr h
  unfold addApp
  split
  · exact ⟨_, rfl⟩
  · rw [if_neg (by rw [hk]; simp), hs]
    exact ⟨_, rfl⟩

theorem groupAppsAux_mem :
    ∀ {l : List JValue} {acc out : List CategoryData},
      groupAppsAux acc l = .ok out →
      ∀ c ∈ out, ∀ a ∈ c.apps,
        (∃ c0 ∈ acc, a ∈ c0.apps) ∨ a ∈ l := by
  intro l
  induction l with
  | nil =>
    intro acc out h c hc a ha
    rw [groupAppsAux] at h
    obtain rfl := (Except.ok.injEq _ _).mp h
    exact Or.inl ⟨c, hc, ha⟩
  | cons app rest ih =>
    intro acc out h c hc a ha
    rw [groupAppsAux] at h
    cases hadd : addApp acc app with
    | error e => simp only [hadd] at h; exact absurd h (by simp)
    | ok acc1 =>
      simp only [hadd] at h
      rcases ih h c hc a ha with ⟨c0, hc0, ha0⟩ | hrest
      · rcases addApp_mem hadd hc0 ha0 with ⟨c1, hc1, ha1⟩ | rfl
        · exact Or.inl ⟨c1, hc1, ha1⟩
        · exact Or.inr (by simp)
      · exact Or.inr (by simp [hrest])

theorem groupAppsAux_pred {Q : CategoryData → Prop}
    (hQglue : ∀ c : CategoryData, ∀ app : JValue, Q c →
      Q { c with count := c.count + 1, apps := c.apps ++ [app] })
    (hQnew : ∀ s : String, ∀ app : JValue, Q ⟨s, slugifyAll s, 1, [app]⟩) :
    ∀ {l : List JValue} {acc out : List CategoryData},
      groupAppsAux acc l = .ok out → (∀ c ∈ acc, Q c) →
      ∀ c ∈ out, Q c := by
  intro l
  induction l with
  | nil =>
    intro acc out h hacc c hc
    rw [groupAppsAux] at h
    obtain rfl := (Except.ok.injEq _ _).mp h
    exact hacc c hc
  | cons app rest ih =>
    intro acc out h hacc c hc
    rw [groupAppsAux] at h
    cases hadd : addApp acc app with
    | error e => simp only [hadd] at h; exact absurd h (by simp)
    | ok acc1 =>
      simp only [hadd] at h
      exact ih h (addApp_pred hQglue hQnew hadd hacc) c hc

theorem groupAppsAux_ok :
    ∀ {l : List JValue},
      (∀ app ∈ l,
        (jsTruthy ((getField app "category").getD .jnull) = false ∨
          ∃ s, (getField app "category").getD .jnull = .jstr s) ∧
        objectPrototypeKeys.contains
          (jsToString (categoryValue app)) = false) →
      ∀ acc : List CategoryData, ∃ out, groupAppsAux acc l = .ok out := by
  intro l
  induction l with
  | nil => exact fun _ acc => ⟨acc, rfl⟩
  | cons app rest ih =>
    intro h acc
    obtain ⟨acc1, hacc1⟩ :=
      @addApp_ok acc app (h app (by simp)).1 (h app (by simp)).2
    obtain ⟨out, hout⟩ := ih (fun a ha => h a (by simp [ha])) acc1
    rw [groupAppsAux]
    simp only [hacc1]
    exact ⟨out, hout⟩

theorem sortCats_mem {cmp : String → String → Ordering} :
    ∀ {cats out : List CategoryData}, sortCats cmp cats = .ok out →
      ∀ c' ∈ out, ∃ c ∈ cats, c'.name = c.name ∧ c'.slug = c.slug ∧
        c'.count = c.count ∧
        ∃ sorted, sortByE (localeCompareApp cmp) c.apps = .ok sorted ∧
          c'.apps = sorted := by
  intro cats
  induction cats with
  | nil =>
    intro out h c' hc'
    rw [sortCats] at h
    obtain rfl := ((Except.ok.injEq _ _).mp h).symm
    simp at hc'
  | cons c rest ih =>
    intro out h c' hc'
    rw [sortCats] at h
    cases hs : sortByE (localeCompareApp cmp) c.apps with
    | error e => simp only [hs] at h; exact absurd h (by simp)
    | ok sorted =>
      simp only [hs] at h
      cases hr : sortCats cmp rest with
      | error e => simp only [hr] at h; exact absurd h (by simp)
      | ok rest' =>
        simp only [hr] at h
        obtain rfl := (Except.ok.injEq _ _).mp h
        rcases List.mem_cons.mp hc' with rfl | hc''
        · exact ⟨c, by simp, rfl, rfl, rfl, sorted, hs, rfl⟩
        · obtain ⟨c0, hc0, hrest⟩ := ih hr c' hc''
          exact ⟨c0, by simp [hc0], hrest⟩

theorem sortCats_ok {cmp : String → String → Ordering} :
    ∀ {cats : List CategoryData},
      (∀ c ∈ cats, ∃ r, sortByE (localeCompareApp cmp) c.apps = .ok r) →
      ∃ out, sortCats cmp cats = .ok out := by
  intro cats
  induction cats with
  | nil => exact fun _ => ⟨[], rfl⟩
  | cons c rest ih =>
    intro h
    obtain ⟨r, hr⟩ := h c (by simp)
    obtain ⟨out, hout⟩ := ih (fun c' hc' => h c' (by simp [hc']))
    rw [sortCats]
    simp only [hr, hout]
    exact ⟨_, rfl⟩

theorem organize_parts {cmp : String → String → Ordering}
    {apps : List JValue} {cats : List CategoryData}
    (h : organizeAppsByCategory cmp apps = .ok cats) :
    ∃ g, groupAppsAux [] apps = .ok g ∧ sortCats cmp g = .ok cats := by
  unfold organizeAppsByCategory at h
  cases hg : groupAppsAux ([] : List CategoryData) apps with
  | error e => simp only [hg] at h; exact absurd h (by simp)
  | ok g =>
    simp only [hg] at h
    exact ⟨g, rfl, h⟩

theorem allMain_written_parts {inp : AllInput} {out : AllOutput}
    (h : allMain inp = .ok out) {d : CategoryAllData}
    (hd : out.written = some d) :
    ∃ cats, organizeAppsByCategory inp.cmp
        (readAllMetadataFiles inp.git inp.files) = .ok cats ∧
      d = buildAllData inp.cmp inp.generatedAt
        (readAllMetadataFiles inp.git inp.files) cats ∧
      inp.writeOk = true := by
  unfold allMain at h
  split at h
  · obtain rfl := (Except.ok.injEq _ _).mp h
    simp at hd
  · cases ho : organizeAppsByCategory inp.cmp
        (readAllMetadataFiles inp.git inp.files) with
    | error e => simp only [ho] at h; exact absurd h (by simp)
    | ok cats =>
      simp only [ho] at h
      split at h
      · next hw =>
        obtain rfl := (Except.ok.injEq _ _).mp h
        simp only at hd
        obtain rfl := (Option.some.injEq _ _).mp hd
        exact ⟨cats, rfl, rfl, hw⟩
      · obtain rfl := (Except.ok.injEq _ _).mp h
        simp at hd

theorem allMain_exitCode {inp : AllInput} {out : AllOutput}
    (h : allMain inp = .ok out) :
    out.exitCode =
      if (readAllMetadataFiles inp.git inp.files).length = 0 then 0
      else if inp.writeOk then 0 else 1 := by
  unfold allMain at h
  split at h
  · next hz =>
    obtain rfl := (Except.ok.injEq _ _).mp h
    rw [if_pos hz]
  · next hz =>
    cases ho : organizeAppsByCategory inp.cmp
        (readAllMetadataFiles inp.git inp.files) with
    | error e => simp only [ho] at h; exact absurd h (by simp)
    | ok cats =>
      simp only [ho] at h
      rw [if_neg hz]
      split at h
      · next hw =>
        obtain rfl := (Except.ok.injEq _ _).mp h
        rw [if_pos hw]
      · next hw =>
        obtain rfl := (Except.ok.injEq _ _).mp h
        rw [if_neg hw]

theorem buildAllData_mem {cmp : String → String → Ordering}
    {generatedAt : Int} {apps : List JValue} {cats : List CategoryData}
    {e : CategoryAllEntry}
    (he : e ∈ (buildAllData cmp generatedAt apps cats).categories) :
    ∃ c ∈ cats,
      e = ⟨c.name, c.slug, c.count, c.apps,
        getCategoryLastUpdated c.apps⟩ := by
  unfold buildAllData at he
  simp only at he
  have := (sortOrd_perm _ _).mem_iff.mp he
  obtain ⟨c, hc, rfl⟩ := List.mem_map.mp this
  exact ⟨c, hc, rfl⟩

theorem buildAllData_sorted {cmp : String → String → Ordering}
    {generatedAt : Int} {apps : List JValue} {cats : List CategoryData}
    (hasym : ∀ a b, cmp a b = .gt → cmp b a ≠ .gt)
    (htrans : ∀ a b c, cmp a b ≠ .gt → cmp b c ≠ .gt → cmp a c ≠ .gt) :
    (buildAllData cmp generatedAt apps cats).categories.Pairwise
      (fun a b => cmp a.name b.name ≠ .gt) := by
  unfold buildAllData
  exact sortOrd_pairwise _ (fun a b => hasym a.name b.name)
    (fun a b c => htrans a.name b.name c.name) _

theorem isMaxOf_foldl :
    ∀ (ts : List Int) (t : Int), isMaxOf (ts.foldl max t) (t :: ts) := by
  intro ts
  induction ts with
  | nil =>
    intro t
    exact ⟨by simp, by simp⟩
  | cons u us ih =>
    intro t
    have h := ih (max t u)
    rw [List.foldl_cons]
    constructor
    · rcases List.mem_cons.mp h.1 with hm | hm
      · rw [hm]
        rcases max_choice t u with he | he <;> rw [he] <;> simp
      · simp [hm]
    · intro v hv
      rcases List.mem_cons.mp hv with rfl | hv'
      · exact le_trans (le_max_left v u) (h.2 _ (List.mem_cons_self _ _))
      · rcases List.mem_cons.mp hv' with rfl | hv''
        · exact le_trans (le_max_right t v) (h.2 _ (List.mem_cons_self _ _))
        · exact h.2 v (List.mem_cons_of_mem _ hv'')

theorem getCategoryLastUpdated_isMax {apps : List JValue}
    (h : apps ≠ []) :
    isMaxOf (getCategoryLastUpdated apps) (apps.map appLastUpdated) := by
  unfold getCategoryLastUpdated
  cases happs : apps.map appLastUpdated with
  | nil => exact absurd (List.map_eq_nil_iff.mp happs) h
  | cons t ts => exact isMaxOf_foldl ts t

end GenAll

/-! ## Further support lemmas -/

namespace GenRel

theorem addSupportedScreen_getField (app : JValue)
    (bs : List (String × JValue)) {k : String}
    (h : k ≠ "supported-screen-size") :
    getField (.jobj (addSupportedScreen app bs)) k = getField (.jobj bs) k := by
  cases hv : getField app "supported-screen-size" with
  | none => simp only [addSupportedScreen, hv]
  | some v =>
    simp only [addSupportedScreen, hv]
    split
    · exact getField_setKey_ne bs _ v k h
    · rfl

theorem addSupportedDevices_getField (app : JValue)
    (bs : List (String × JValue)) {k : String}
    (h : k ≠ "supported-devices") :
    getField (.jobj (addSupportedDevices app bs)) k = getField (.jobj bs) k := by
  cases hv : getField app "supported-devices" with
  | none => simp only [addSupportedDevices, hv]
  | some v =>
    simp only [addSupportedDevices, hv]
    split
    · exact getField_setKey_ne bs _ v k h
    · rfl

theorem cleanBase_getField (fs : List (String × JValue)) {k : String}
    (h : stripFields.contains k = false) :
    getField (.jobj (cleanBase (.jobj fs))) k = getField (.jobj fs) k := by
  unfold cleanBase
  rw [getField_jobj, getField_jobj]
  rw [find?_filter_of fs]
  intro x _ hx
  have : x.1 = k := by simpa using hx
  rw [this, h]
  rfl

theorem cleanApp_getField (fs : List (String × JValue)) {k : String}
    (h1 : stripFields.contains k = false) (h2 : k ≠ "slug")
    (h3 : k ≠ "supported-devices") (h4 : k ≠ "supported-screen-size") :
    getField (cleanApp (.jobj fs)) k = getField (.jobj fs) k := by
  unfold cleanApp
  rw [addSupportedScreen_getField _ _ h4, addSupportedDevices_getField _ _ h3,
    getField_setKey_ne _ "slug" _ k h2, cleanBase_getField fs h1]

theorem strNameOf_cleanApp (fs : List (String × JValue)) :
    strNameOf (cleanApp (.jobj fs)) = strNameOf (.jobj fs) := by
  unfold strNameOf
  rw [cleanApp_getField fs (by decide) (by decide) (by decide) (by decide)]

theorem releaseName_inj {s t : String}
    (h : "category-" ++ s ++ ".json" = "category-" ++ t ++ ".json") :
    s = t := by
  have hd := congrArg String.data h
  simp only [String.data_append] at hd
  rw [List.append_assoc, List.append_assoc] at hd
  have h2 := List.append_cancel_left hd
  have h3 := List.append_cancel_right h2
  exact String.ext h3

end GenRel

theorem lenCmp_consistent : cmpConsistent lenCmp := by
  constructor
  · intro a b h
    rw [lenCmp, Nat.compare_eq_gt] at h
    simp only [lenCmp, ne_eq, Nat.compare_eq_gt]
    omega
  · intro a b c hab hbc
    simp only [lenCmp, ne_eq, Nat.compare_eq_gt] at hab hbc ⊢
    omega

theorem sortByE_ok_ne_nil {cmpE : α → α → Except Unit Ordering}
    {l r : List α} (h : sortByE cmpE l = .ok r) (hne : l ≠ []) : r ≠ [] := by
  intro hr
  subst hr
  have := (sortByE_perm h).length_eq
  simp only [List.length_nil] at this
  exact hne (List.length_eq_zero.mp this.symm)

/-! ## The claims -/

/-- Claim C4 (confirmed): each script's slugify function is idempotent, and
its result contains only lowercase ASCII alphanumerics and hyphens. -/
theorem c4_slugify_idempotent_alphabet (s : String) :
    slugifyRel (slugifyRel s) = slugifyRel s ∧
    slugifyAll (slugifyAll s) = slugifyAll s ∧
    (∀ c ∈ (slugifyRel s).data, isLowerAlnum c = true ∨ c = '-') ∧
    (∀ c ∈ (slugifyAll s).data, isLowerAlnum c = true ∨ c = '-') :=
  ⟨slugifyRel_idem s, slugifyAll_idem s, slugifyRel_alphabet s,
   slugifyAll_alphabet s⟩

/-- Instantiation of claim C4 at a concrete category name. -/
theorem c4_slugify_idempotent_witness :
    slugifyRel (slugifyRel "Héllo, Wörld!") = slugifyRel "Héllo, Wörld!" ∧
    slugifyAll (slugifyAll "Héllo, Wörld!") = slugifyAll "Héllo, Wörld!" :=
  ⟨(c4_slugify_idempotent_alphabet "Héllo, Wörld!").1,
   (c4_slugify_idempotent_alphabet "Héllo, Wörld!").2.1⟩

/-- Claim C1, counterexample: a metadata file missing `version` (and more)
is rejected by the releases-script validator, yet the consolidated
`category-all.json` run includes it as its only app — the entry is not
excluded from all generated outputs. -/
theorem c1_required_fields_counterexample :
    GenRel.loadMetadata missingVersionFile = none ∧
    (allWrittenApps c1AllInput).map
      (fun a => GenRel.fieldAbsentOrEmpty a "version") = [true] := by
  constructor
  · rfl
  · rfl

/-- Claim C2, counterexample: in the releases script, the Games row of
`categories.json` carries timestamp `100`, the resolved timestamp of the
release file `releases/category-games.json` — while the resolved timestamp
of its only member entry's metadata file is `50`, so the row is not the
maximum over member entries. -/
theorem c2_category_timestamp_counterexample :
    relIndexRows c2RelInput = [("Games", "games", 1, 100)] ∧
    getLastCommitTimestampForMetadataFile splitGit
      "repositories/o/r/app/metadata.json" = 50 ∧
    (100 : Int) ≠ 50 := by
  refine ⟨rfl, rfl, ?_⟩
  decide

/-- Claim C3, counterexample: for the category name `"A  B"` the releases
script writes slug `"a--b"` (each of the two spaces becomes its own
hyphen), while the claimed run-collapsing slug is `"a-b"`. -/
theorem c3_slug_counterexample :
    relIndexRows c3RelInput = [("A  B", "a--b", 1, 50)] ∧
    slugSpecCollapse "A  B" = "a-b" ∧ ("a--b" : String) ≠ "a-b" := by
  refine ⟨rfl, rfl, ?_⟩
  decide

/-- Claim C5, counterexample: for a dirty file, the consolidated script's
resolver returns the last commit timestamp (`50`), not the current time
(`100`) demanded by the claimed chain — it has no dirty-status step. -/
theorem c5_resolver_counterexample :
    getLastCommitTimestampForMetadataFile dirtyGit
      "repositories/x/metadata.json" = 50 ∧
    resolverSpecChain dirtyGit "repositories/x/metadata.json" = 100 ∧
    (50 : Int) ≠ 100 := by
  refine ⟨rfl, rfl, ?_⟩
  decide

/-- Claim C5 as amended: the releases script's resolver follows the chain
(dirty → current time; else last commit timestamp when history yields one;
else current time, also when the history query fails), while the
consolidated script's resolver omits the dirty-status step — it returns the
commit timestamp whenever the history query yields one, even for a dirty
path, and falls back to current time on empty history or a failing query;
neither resolver aborts. -/
theorem c5_resolver_amended (g1 g2 g3 g4 g5 : GitOracle) (c p q : String)
    (t u : Int)
    (h1 : g1.statusDirty (categoryReleasePath c) = .ok true)
    (h2s : g2.statusDirty (categoryReleasePath c) = .ok false)
    (h2l : g2.logTimestamp (categoryReleasePath c) = .ok (some t))
    (h3s : g3.statusDirty (categoryReleasePath c) = .ok false)
    (h3l : g3.logTimestamp (categoryReleasePath c) = .ok none)
    (h4s : g4.statusDirty p = .ok true)
    (h4l : g4.logTimestamp p = .ok (some u))
    (h5 : g5.logTimestamp q = .error ()) :
    getLastCommitTimestampForCategory g1 c = g1.now ∧
    getLastCommitTimestampForCategory g2 c = t ∧
    getLastCommitTimestampForCategory g3 c = g3.now ∧
    getLastCommitTimestampForMetadataFile g4 p = u ∧
    getLastCommitTimestampForMetadataFile g5 q = g5.now := by
  refine ⟨?_, ?_, ?_, ?_, ?_⟩
  · simp only [getLastCommitTimestampForCategory, h1]
  · simp only [getLastCommitTimestampForCategory, h2s, h2l]
  · simp only [getLastCommitTimestampForCategory, h3s, h3l]
  · simp only [getLastCommitTimestampForMetadataFile, h4l]
  · simp only [getLastCommitTimestampForMetadataFile, h5]

/-- Instantiation of the amended claim C5 at concrete oracles. -/
theorem c5_resolver_amended_witness :
    dirtyGit.statusDirty (categoryReleasePath "Games") = .ok true ∧
    getLastCommitTimestampForCategory dirtyGit "Games" = 100 ∧
    getLastCommitTimestampForCategory cleanGit "Games" = 50 ∧
    getLastCommitTimestampForCategory noHistGit "Games" = 1234 ∧
    getLastCommitTimestampForMetadataFile dirtyGit "p" = 50 ∧
    getLastCommitTimestampForMetadataFile errGit "q" = 77 := by
  have h := c5_resolver_amended dirtyGit cleanGit noHistGit dirtyGit errGit
    "Games" "p" "q" 50 50 rfl rfl rfl rfl rfl rfl rfl rfl
  exact ⟨rfl, h.1, h.2.1, h.2.2.1, h.2.2.2.1, h.2.2.2.2⟩

/-- Claim C8, counterexample: a parseable metadata file whose `category` is
the number `5` makes the consolidated script throw (`toLowerCase` on a
non-string) before writing anything, and two apps whose `name` fields are
numbers make the releases script's sort comparator throw — both runs end
with an unhandled error and exit code 1.  Moreover a fully valid entry
whose `category` is the string `toString` crashes both scripts: the
plain-object lookup finds the inherited `Object.prototype.toString`, bucket
creation is skipped, and the `.push` / `.apps.push` on the inherited value
throws. -/
theorem c8_crash_counterexample :
    GenAll.allMain crashAllInput = .error () ∧
    GenAll.allExitCode crashAllInput = 1 ∧
    GenRel.relMain crashRelInput = .error () ∧
    GenRel.relExitCode crashRelInput = 1 ∧
    GenRel.relMain protoCrashRelInput = .error () ∧
    GenRel.relExitCode protoCrashRelInput = 1 ∧
    GenAll.allMain protoCrashAllInput = .error () ∧
    GenAll.allExitCode protoCrashAllInput = 1 :=
  ⟨rfl, rfl, rfl, rfl, rfl, rfl, rfl, rfl⟩

/-- Claim C10 (confirmed): with zero discovered metadata files each script
returns early: exit code 0, no output written, nothing removed. -/
theorem c10_empty_input_no_effect (ir : GenRel.RelInput)
    (ia : GenAll.AllInput) (hr : ir.files = []) (ha : ia.files = []) :
    GenRel.relMain ir = .ok ⟨[], [], none, [], 0⟩ ∧
    GenAll.allMain ia = .ok ⟨none, 0⟩ := by
  constructor
  · unfold GenRel.relMain
    rw [hr]
    rfl
  · unfold GenAll.allMain
    rw [ha]
    rfl

/-- Instantiation of claim C10 at concrete inputs whose releases directory
holds a previously generated artifact. -/
theorem c10_empty_input_witness :
    GenRel.relMain c10RelInput = .ok ⟨[], [], none, [], 0⟩ ∧
    GenAll.allMain c10AllInput = .ok ⟨none, 0⟩ :=
  c10_empty_input_no_effect c10RelInput c10AllInput rfl rfl

/-- Helper: the required-field check is unchanged by the cleaning of an app
for the fields the cleaning keeps. -/
theorem fieldAbsentOrEmpty_cleanApp {m : JValue} {fs : List (String × JValue)}
    (hm : m = .jobj fs) {k : String}
    (h1 : GenRel.stripFields.contains k = false) (h2 : k ≠ "slug")
    (h3 : k ≠ "supported-devices") (h4 : k ≠ "supported-screen-size") :
    GenRel.fieldAbsentOrEmpty (GenRel.cleanApp m) k =
      GenRel.fieldAbsentOrEmpty m k := by
  subst hm
  unfold GenRel.fieldAbsentOrEmpty
  rw [GenRel.cleanApp_getField fs h1 h2 h3 h4]

/-- Claim C1 as amended: the releases script excludes every entry with a
missing or empty required field from all its outputs — each emitted app is
the cleaning of a validated entry and retains non-empty `name`,
`description` and `version` (the other required fields are stripped on
output) — while the consolidated script performs no required-field
validation at all: its app total counts every parseable metadata file. -/
theorem c1_required_fields_amended
    (ir : GenRel.RelInput) (orr : GenRel.RelOutput)
    (hr : GenRel.relMain ir = .ok orr)
    (ia : GenAll.AllInput) (oa : GenAll.AllOutput)
    (ha : GenAll.allMain ia = .ok oa) :
    (∀ rf ∈ orr.written, ∀ a ∈ rf.apps,
      (∃ f ∈ ir.files, ∃ m, GenRel.loadMetadata f = some m ∧
        a = GenRel.cleanApp m) ∧
      GenRel.fieldAbsentOrEmpty a "name" = false ∧
      GenRel.fieldAbsentOrEmpty a "description" = false ∧
      GenRel.fieldAbsentOrEmpty a "version" = false) ∧
    (∀ d, oa.written = some d →
      d.totalApps = (ia.files.filter (fun f => f.parsed.isSome)).length) := by
  constructor
  · intro rf hrf a haf
    by_cases hne : ir.files.length = 0
    · unfold GenRel.relMain at hr
      rw [if_pos hne] at hr
      obtain rfl := (Except.ok.injEq _ _).mp hr
      simp at hrf
    · obtain ⟨categorized, ws, names, cs, hcateg, hproc, rfl⟩ :=
        GenRel.relMain_ok_parts hr hne
      obtain ⟨cat, apps, hmem, sorted, hsort, hfn, hcat, hcount, happs⟩ :=
        GenRel.processCategories_written hproc rf hrf
      rw [happs] at haf
      obtain ⟨b, hb, rfl⟩ := List.mem_map.mp haf
      have hbmem : b ∈ apps := (sortByE_perm hsort).mem_iff.mp hb
      obtain ⟨f, hf, hload⟩ := GenRel.categorize_mem hcateg hmem hbmem
      refine ⟨⟨f, hf, b, hload, rfl⟩, ?_, ?_, ?_⟩ <;>
      · obtain ⟨fs, hp, hbeq, hall⟩ := GenRel.loadMetadata_shape hload
        rw [fieldAbsentOrEmpty_cleanApp hbeq (by decide) (by decide)
          (by decide) (by decide)]
        exact GenRel.loadMetadata_required hload _ (by decide)
  · intro d hd
    obtain ⟨cats, horg, rfl, hw⟩ := GenAll.allMain_written_parts ha hd
    have htot : (GenAll.buildAllData ia.cmp ia.generatedAt
        (GenAll.readAllMetadataFiles ia.git ia.files) cats).totalApps =
        (GenAll.readAllMetadataFiles ia.git ia.files).length := rfl
    rw [htot, GenAll.readAllMetadataFiles_length]

/-- Instantiation of the amended claim C1 at concrete inputs including an
unparseable file and a field-incomplete file. -/
theorem c1_required_fields_amended_witness :
    GenRel.relMain typedRelInput = .ok (relRun typedRelInput) ∧
    GenAll.allMain typedAllInput = .ok (allRun typedAllInput) ∧
    (∀ d, (allRun typedAllInput).written = some d →
      d.totalApps =
        (typedAllInput.files.filter (fun f => f.parsed.isSome)).length) :=
  ⟨rfl, rfl,
   (c1_required_fields_amended typedRelInput (relRun typedRelInput) rfl
     typedAllInput (allRun typedAllInput) rfl).2⟩

/-- Claim C2 as amended: in consolidated mode a category's `lastUpdated` is
the maximum of its member entries' resolved timestamps, but in per-category
mode the `categories.json` row carries the resolved timestamp of the
category's own release file instead. -/
theorem c2_category_timestamp_amended
    (ia : GenAll.AllInput) (oa : GenAll.AllOutput)
    (ha : GenAll.allMain ia = .ok oa)
    (ir : GenRel.RelInput) (orr : GenRel.RelOutput)
    (hr : GenRel.relMain ir = .ok orr) :
    (∀ d, oa.written = some d → ∀ cat ∈ d.categories,
      cat.apps ≠ [] ∧
      isMaxOf cat.lastUpdated (cat.apps.map GenAll.appLastUpdated)) ∧
    (∀ idx, orr.indexWritten = some idx → ∀ e ∈ idx.categories,
      e.lastUpdated = getLastCommitTimestampForCategory ir.git e.name) := by
  constructor
  · intro d hd cat hcat
    obtain ⟨cats, horg, rfl, hw⟩ := GenAll.allMain_written_parts ha hd
    obtain ⟨c, hc, rfl⟩ := GenAll.buildAllData_mem hcat
    obtain ⟨g, hg, hsort⟩ := GenAll.organize_parts horg
    obtain ⟨c0, hc0, hname, hslug, hcount, sorted, hs, happs⟩ :=
      GenAll.sortCats_mem hsort c hc
    have hc0ne : c0.apps ≠ [] :=
      @GenAll.groupAppsAux_pred (fun c => c.apps ≠ [])
        (fun c' app h' => by simp) (fun s app => by simp)
        _ _ _ hg (by simp) c0 hc0
    have hne : c.apps ≠ [] := by
      rw [happs]
      exact sortByE_ok_ne_nil hs hc0ne
    exact ⟨hne, GenAll.getCategoryLastUpdated_isMax hne⟩
  · intro idx hidx e he
    by_cases hne : ir.files.length = 0
    · unfold GenRel.relMain at hr
      rw [if_pos hne] at hr
      obtain rfl := (Except.ok.injEq _ _).mp hr
      simp at hidx
    · obtain ⟨categorized, ws, names, cs, hcateg, hproc, rfl⟩ :=
        GenRel.relMain_ok_parts hr hne
      have hbe := GenRel.buildIndex_mem hidx e he
      exact congrArg GenRel.CategoryIndexEntry.lastUpdated hbe

/-- Instantiation of the amended claim C2: the concrete per-category run of
`c2RelInput` against `splitGit` and a consolidated run. -/
theorem c2_category_timestamp_amended_witness :
    GenAll.allMain typedAllInput = .ok (allRun typedAllInput) ∧
    GenRel.relMain c2RelInput = .ok (relRun c2RelInput) ∧
    (∀ idx, (relRun c2RelInput).indexWritten = some idx →
      ∀ e ∈ idx.categories,
        e.lastUpdated = getLastCommitTimestampForCategory c2RelInput.git
          e.name) :=
  ⟨rfl, rfl,
   (c2_category_timestamp_amended typedAllInput (allRun typedAllInput) rfl
     c2RelInput (relRun c2RelInput) rfl).2⟩

/-- Claim C3 as amended: the consolidated script's slug collapses every
maximal run of non-alphanumerics to one hyphen, but the releases script's
slug replaces each non-alphanumeric character with its own hyphen, so runs
are not collapsed there. -/
theorem c3_slug_modes_amended
    (ir : GenRel.RelInput) (orr : GenRel.RelOutput)
    (hr : GenRel.relMain ir = .ok orr)
    (ia : GenAll.AllInput) (oa : GenAll.AllOutput)
    (ha : GenAll.allMain ia = .ok oa) :
    (∀ idx, orr.indexWritten = some idx → ∀ e ∈ idx.categories,
      e.slug = slugSpecPerChar e.name) ∧
    (∀ rf ∈ orr.written,
      rf.fileName = "category-" ++ slugSpecPerChar rf.category ++ ".json") ∧
    (∀ d, oa.written = some d → ∀ cat ∈ d.categories,
      cat.slug = slugSpecCollapse cat.name) := by
  refine ⟨?_, ?_, ?_⟩
  · intro idx hidx e he
    by_cases hne : ir.files.length = 0
    · unfold GenRel.relMain at hr
      rw [if_pos hne] at hr
      obtain rfl := (Except.ok.injEq _ _).mp hr
      simp at hidx
    · obtain ⟨categorized, ws, names, cs, hcateg, hproc, rfl⟩ :=
        GenRel.relMain_ok_parts hr hne
      have hbe := GenRel.buildIndex_mem hidx e he
      exact (congrArg GenRel.CategoryIndexEntry.slug hbe).trans
        (slugifyRel_eq_spec e.name)
  · intro rf hrf
    by_cases hne : ir.files.length = 0
    · unfold GenRel.relMain at hr
      rw [if_pos hne] at hr
      obtain rfl := (Except.ok.injEq _ _).mp hr
      simp at hrf
    · obtain ⟨categorized, ws, names, cs, hcateg, hproc, rfl⟩ :=
        GenRel.relMain_ok_parts hr hne
      obtain ⟨cat, apps, hmem, sorted, hsort, hfn, hcat, hcount, happs⟩ :=
        GenRel.processCategories_written hproc rf hrf
      rw [hfn, hcat, slugifyRel_eq_spec]
  · intro d hd cat hcat
    obtain ⟨cats, horg, rfl, hw⟩ := GenAll.allMain_written_parts ha hd
    obtain ⟨c, hc, rfl⟩ := GenAll.buildAllData_mem hcat
    obtain ⟨g, hg, hsort⟩ := GenAll.organize_parts horg
    obtain ⟨c0, hc0, hname, hslug, hcount, sorted, hs, happs⟩ :=
      GenAll.sortCats_mem hsort c hc
    have hc0slug : c0.slug = slugifyAll c0.name :=
      @GenAll.groupAppsAux_pred (fun c => c.slug = slugifyAll c.name)
        (fun c' app h' => by simpa using h') (fun s app => rfl)
        _ _ _ hg (by simp) c0 hc0
    show c.slug = slugSpecCollapse c.name
    rw [hslug, hname, hc0slug, slugifyAll_eq_spec]

/-- Instantiation of the amended claim C3 at the run whose category name
holds a run of two spaces. -/
theorem c3_slug_modes_amended_witness :
    GenRel.relMain c3RelInput = .ok (relRun c3RelInput) ∧
    GenAll.allMain typedAllInput = .ok (allRun typedAllInput) ∧
    (∀ idx, (relRun c3RelInput).indexWritten = some idx →
      ∀ e ∈ idx.categories, e.slug = slugSpecPerChar e.name) :=
  ⟨rfl, rfl,
   (c3_slug_modes_amended c3RelInput (relRun c3RelInput) rfl typedAllInput
     (allRun typedAllInput) rfl).1⟩

/-- Claim C6 (confirmed): the consolidated script exits non-zero exactly
when its aggregate output cannot be written (given loaded apps); the
releases script always exits 0 on a completed run, a failed release-file or
index write is only logged, and every category is still attempted — the
written names are exactly the per-category file names whose write
succeeded, in order. -/
theorem c6_exit_code_policy
    (ia : GenAll.AllInput) (oa : GenAll.AllOutput)
    (ha : GenAll.allMain ia = .ok oa)
    (ir : GenRel.RelInput) (orr : GenRel.RelOutput)
    (hr : GenRel.relMain ir = .ok orr) :
    (oa.exitCode ≠ 0 ↔
      (GenAll.readAllMetadataFiles ia.git ia.files).length ≠ 0 ∧
        ia.writeOk = false) ∧
    orr.exitCode = 0 ∧
    orr.releaseFiles = ((GenRel.categorizedApps ir.files).map
      (fun p => "category-" ++ slugifyRel p.1 ++ ".json")).filter
        ir.writeReleaseOk := by
  refine ⟨?_, GenRel.relMain_exitCode_zero hr, ?_⟩
  · rw [GenAll.allMain_exitCode ha]
    by_cases hl : (GenAll.readAllMetadataFiles ia.git ia.files).length = 0
    · simp [hl]
    · cases hw : ia.writeOk <;> simp [hl, hw]
  · by_cases hne : ir.files.length = 0
    · unfold GenRel.relMain at hr
      rw [if_pos hne] at hr
      obtain rfl := (Except.ok.injEq _ _).mp hr
      rw [List.length_eq_zero.mp hne]
      rfl
    · obtain ⟨categorized, ws, names, cs, hcateg, hproc, rfl⟩ :=
        GenRel.relMain_ok_parts hr hne
      rw [GenRel.categorizedApps_eq hcateg]
      exact (GenRel.processCategories_parts hproc).1

/-- Instantiation of claim C6: a run whose aggregate write fails exits 1; a
run where one release file and the index fail to write still exits 0 and
still writes the remaining category. -/
theorem c6_exit_code_policy_witness :
    GenAll.allMain failWriteAllInput = .ok (allRun failWriteAllInput) ∧
    (allRun failWriteAllInput).exitCode = 1 ∧
    GenRel.relMain failWriteRelInput = .ok (relRun failWriteRelInput) ∧
    (relRun failWriteRelInput).exitCode = 0 ∧
    (relRun failWriteRelInput).releaseFiles = ["category-tools.json"] := by
  refine ⟨rfl, rfl, rfl, ?_, rfl⟩
  exact (c6_exit_code_policy failWriteAllInput (allRun failWriteAllInput)
    rfl failWriteRelInput (relRun failWriteRelInput) rfl).2.1

/-- Claim C9 (confirmed): after a completed releases-script run that found
at least one metadata file, every `category-*.json` name in the releases
directory that was not successfully written this run is removed — in
particular `releases/category-all.json`, whenever no current category's
slug is `all`. -/
theorem c9_stale_cleanup
    (ir : GenRel.RelInput) (orr : GenRel.RelOutput)
    (hr : GenRel.relMain ir = .ok orr) (hne : ¬ir.files.length = 0) :
    (∀ f ∈ ir.existingFiles, GenRel.strStartsWith f "category-" = true →
      GenRel.strEndsWith f ".json" = true → f ∉ orr.releaseFiles →
      f ∈ orr.removed) ∧
    ("category-all.json" ∈ ir.existingFiles →
      (∀ p ∈ GenRel.categorizedApps ir.files, slugifyRel p.1 ≠ "all") →
      "category-all.json" ∈ orr.removed) := by
  obtain ⟨categorized, ws, names, cs, hcateg, hproc, rfl⟩ :=
        GenRel.relMain_ok_parts hr hne
  have hfilter : ∀ f ∈ ir.existingFiles,
      GenRel.strStartsWith f "category-" = true →
      GenRel.strEndsWith f ".json" = true → f ∉ names →
      f ∈ GenRel.staleRemoved ir.existingFiles names := by
    intro f hf h1 h2 h3
    unfold GenRel.staleRemoved
    rw [List.mem_filter]
    refine ⟨hf, ?_⟩
    rw [h1, h2]
    have hcf : names.contains f = false := by
      cases hcon : names.contains f
      · rfl
      · exact absurd (List.elem_iff.mp hcon) h3
    rw [hcf]
    rfl
  refine ⟨hfilter, ?_⟩
  intro hmem hslug
  rw [GenRel.categorizedApps_eq hcateg] at hslug
  refine hfilter _ hmem (by decide) (by decide) ?_
  intro hin
  rw [(GenRel.processCategories_parts hproc).1] at hin
  obtain ⟨p, hp, heq⟩ := List.mem_map.mp (List.mem_of_mem_filter hin)
  have h' : "category-" ++ slugifyRel p.1 ++ ".json" =
      "category-" ++ "all" ++ ".json" := heq.trans (by rfl)
  exact hslug p hp (GenRel.releaseName_inj h')

/-- Instantiation of claim C9: the run over one Games app removes the
consolidated artifact and an obsolete release file, while the index and the
freshly written release file survive. -/
theorem c9_stale_cleanup_witness :
    GenRel.relMain c9RelInput = .ok (relRun c9RelInput) ∧
    "category-all.json" ∈ (relRun c9RelInput).removed ∧
    "category-old.json" ∈ (relRun c9RelInput).removed ∧
    "categories.json" ∉ (relRun c9RelInput).removed ∧
    "category-games.json" ∉ (relRun c9RelInput).removed := by
  refine ⟨rfl, ?_, by decide, by decide, by decide⟩
  exact (c9_stale_cleanup c9RelInput (relRun c9RelInput) rfl
    (by decide)).2 (by decide) (by decide)

/-- Bridge: when no file's parsed category key names an inherited
`Object.prototype` member, the releases-script grouping pass completes. -/
theorem categorize_ok_of_keysafe {files : List MetadataFile}
    (hk : ∀ f ∈ files, safeCategoryKey f) :
    ∃ cats, GenRel.categorize files = .ok cats := by
  unfold GenRel.categorize
  refine GenRel.categorizeAux_ok ?_ []
  intro f hf m hm
  obtain ⟨fs, hp, -, -⟩ := GenRel.loadMetadata_shape hm
  rw [GenRel.loadMetadata_getField hm hp (by decide)]
  exact hk f hf _ hp

/-- Bridge: under per-file name typing, every app in every bucket of a
completed releases-script grouping has a string `name`. -/
theorem categorize_names {files : List MetadataFile}
    {cats : List (String × List JValue)}
    (hc : GenRel.categorize files = .ok cats)
    (hn : ∀ f ∈ files, nameIsString f) :
    ∀ p ∈ cats, ∀ a ∈ p.2,
      ∃ s, getField a "name" = some (.jstr s) := by
  intro p hp a ha
  obtain ⟨f, hf, hload⟩ := GenRel.categorize_mem hc hp ha
  obtain ⟨fs, hparsed, haeq, -⟩ := GenRel.loadMetadata_shape hload
  obtain ⟨s, hs⟩ := hn f hf _ hparsed
  refine ⟨s, ?_⟩
  rw [haeq, getField_setKey_ne _ _ _ _ (by decide)]
  exact hs

/-- Bridge: on a list of apps with string names the sort completes and
equals the pure insertion sort by name. -/
theorem sortByE_apps_ok {cmp : String → String → Ordering} {l : List JValue}
    (h : ∀ a ∈ l, ∃ s, getField a "name" = some (.jstr s)) :
    sortByE (localeCompareApp cmp) l = .ok (sortOrd (appNameCmp cmp) l) :=
  sortByE_eq_sortOrd (fun a ha b hb =>
    localeCompareApp_ok cmp (h a ha) (h b hb))

/-- Bridge: the pure insertion sort by name yields a name-ordered list for
any consistent comparator. -/
theorem sortOrd_appName_pairwise {cmp : String → String → Ordering}
    (hc : cmpConsistent cmp) (l : List JValue) :
    (sortOrd (appNameCmp cmp) l).Pairwise (nameLe cmp) :=
  sortOrd_pairwise (appNameCmp cmp)
    (fun a b h => hc.1 (strNameOf a) (strNameOf b) h)
    (fun a b c hab hbc =>
      hc.2 (strNameOf a) (strNameOf b) (strNameOf c) hab hbc) l

/-- Bridge: under per-file typing, every loaded app of the consolidated
script has a string `name`. -/
theorem readAll_names (git : GitOracle) {files : List MetadataFile}
    (ht : ∀ f ∈ files, wellTypedEntry f) :
    ∀ a ∈ GenAll.readAllMetadataFiles git files,
      ∃ s, getField a "name" = some (.jstr s) := by
  intro a ha
  obtain ⟨f, hf, m, hp, rfl⟩ := GenAll.readAllMetadataFiles_mem ha
  obtain ⟨⟨fs, rfl⟩, ⟨s, hs⟩, -⟩ := ht f hf m hp
  refine ⟨s, ?_⟩
  rw [GenAll.mkApp_getField _ _ _ (by decide) (by decide) (by decide)]
  exact hs

/-- Bridge: under per-file typing, every loaded app of the consolidated
script has a falsy or string `category`. -/
theorem readAll_category (git : GitOracle) {files : List MetadataFile}
    (ht : ∀ f ∈ files, wellTypedEntry f) :
    ∀ a ∈ GenAll.readAllMetadataFiles git files,
      jsTruthy ((getField a "category").getD .jnull) = false ∨
      ∃ s, (getField a "category").getD .jnull = .jstr s := by
  intro a ha
  obtain ⟨f, hf, m, hp, rfl⟩ := GenAll.readAllMetadataFiles_mem ha
  obtain ⟨⟨fs, rfl⟩, -, hcat⟩ := ht f hf m hp
  rw [GenAll.mkApp_getField _ _ _ (by decide) (by decide) (by decide)]
  exact hcat

/-- Bridge: under per-file typing and key safety, no loaded app of the
consolidated script has a coerced category key naming an inherited
`Object.prototype` member (a falsy category yields the safe sentinel
`Uncategorized`). -/
theorem readAll_keysafe (git : GitOracle) {files : List MetadataFile}
    (ht : ∀ f ∈ files, wellTypedEntry f)
    (hk : ∀ f ∈ files, safeCategoryKey f) :
    ∀ a ∈ GenAll.readAllMetadataFiles git files,
      objectPrototypeKeys.contains
        (jsToString (GenAll.categoryValue a)) = false := by
  intro a ha
  obtain ⟨f, hf, m, hp, rfl⟩ := GenAll.readAllMetadataFiles_mem ha
  obtain ⟨⟨fs, rfl⟩, -, -⟩ := ht f hf m hp
  refine GenAll.categoryValue_keysafe ?_
  rw [GenAll.mkApp_getField _ _ _ (by decide) (by decide) (by decide)]
  exact hk f hf _ hp

/-- Claim C7 (confirmed): on completed runs with string-typed names and a
consistent comparator, apps within each emitted category are sorted by name
and the categories themselves are sorted by name, in both output modes. -/
theorem c7_locale_sorted_outputs
    (ir : GenRel.RelInput) (orr : GenRel.RelOutput)
    (hr : GenRel.relMain ir = .ok orr)
    (hnR : ∀ f ∈ ir.files, nameIsString f) (hcR : cmpConsistent ir.cmp)
    (ia : GenAll.AllInput) (oa : GenAll.AllOutput)
    (ha : GenAll.allMain ia = .ok oa)
    (htA : ∀ f ∈ ia.files, wellTypedEntry f) (hcA : cmpConsistent ia.cmp) :
    (∀ rf ∈ orr.written, rf.apps.Pairwise (nameLe ir.cmp)) ∧
    (∀ idx, orr.indexWritten = some idx →
      idx.categories.Pairwise (fun a b => ir.cmp a.name b.name ≠ .gt)) ∧
    (∀ d, oa.written = some d →
      (∀ cat ∈ d.categories, cat.apps.Pairwise (nameLe ia.cmp)) ∧
      d.categories.Pairwise (fun a b => ia.cmp a.name b.name ≠ .gt)) := by
  refine ⟨?_, ?_, ?_⟩
  · intro rf hrf
    by_cases hne : ir.files.length = 0
    · unfold GenRel.relMain at hr
      rw [if_pos hne] at hr
      obtain rfl := (Except.ok.injEq _ _).mp hr
      simp at hrf
    · obtain ⟨categorized, ws, names, cs, hcateg, hproc, rfl⟩ :=
        GenRel.relMain_ok_parts hr hne
      obtain ⟨cat, apps, hmem, sorted, hsort, hfn, hcat, hcount, happs⟩ :=
        GenRel.processCategories_written hproc rf hrf
      have hbnames := categorize_names hcateg hnR (cat, apps) hmem
      have hseq : sorted = sortOrd (appNameCmp ir.cmp) apps :=
        (Except.ok.injEq _ _).mp (hsort.symm.trans (sortByE_apps_ok hbnames))
      rw [happs, hseq, List.pairwise_map]
      refine (sortOrd_appName_pairwise hcR apps).imp_of_mem ?_
      intro a b hain hbin hab
      have hamem : a ∈ apps := (sortOrd_perm _ _).mem_iff.mp hain
      have hbmem : b ∈ apps := (sortOrd_perm _ _).mem_iff.mp hbin
      obtain ⟨fa, hfa, hla⟩ := GenRel.categorize_mem hcateg hmem hamem
      obtain ⟨fb, hfb, hlb⟩ := GenRel.categorize_mem hcateg hmem hbmem
      obtain ⟨fsa, -, haeq, -⟩ := GenRel.loadMetadata_shape hla
      obtain ⟨fsb, -, hbeq, -⟩ := GenRel.loadMetadata_shape hlb
      unfold nameLe
      rw [haeq, hbeq, GenRel.strNameOf_cleanApp, GenRel.strNameOf_cleanApp]
      rw [haeq, hbeq] at hab
      exact hab
  · intro idx hidx
    by_cases hne : ir.files.length = 0
    · unfold GenRel.relMain at hr
      rw [if_pos hne] at hr
      obtain rfl := (Except.ok.injEq _ _).mp hr
      simp at hidx
    · obtain ⟨categorized, ws, names, cs, hcateg, hproc, rfl⟩ :=
        GenRel.relMain_ok_parts hr hne
      exact GenRel.buildIndex_sorted hidx hcR.1 hcR.2
  · intro d hd
    obtain ⟨cats, horg, rfl, hw⟩ := GenAll.allMain_written_parts ha hd
    refine ⟨?_, GenAll.buildAllData_sorted hcA.1 hcA.2⟩
    intro cat hcat
    obtain ⟨c, hc, rfl⟩ := GenAll.buildAllData_mem hcat
    obtain ⟨g, hg, hsortc⟩ := GenAll.organize_parts horg
    obtain ⟨c0, hc0, hname, hslug, hcount, sorted, hs, happs⟩ :=
      GenAll.sortCats_mem hsortc c hc
    have hbnames : ∀ a ∈ c0.apps, ∃ s, getField a "name" = some (.jstr s) := by
      intro a ha
      rcases GenAll.groupAppsAux_mem hg c0 hc0 a ha with ⟨cx, hcx, -⟩ | hmem
      · simp at hcx
      · exact readAll_names ia.git htA a hmem
    have hseq : sorted = sortOrd (appNameCmp ia.cmp) c0.apps :=
      (Except.ok.injEq _ _).mp (hs.symm.trans (sortByE_apps_ok hbnames))
    show c.apps.Pairwise (nameLe ia.cmp)
    rw [happs, hseq]
    exact sortOrd_appName_pairwise hcA c0.apps

/-- Instantiation of claim C7 at a concrete run of two Games apps under the
length comparator. -/
theorem c7_locale_sorted_outputs_witness :
    GenRel.relMain typedRelInput = .ok (relRun typedRelInput) ∧
    cmpConsistent lenCmp ∧
    (∀ rf ∈ (relRun typedRelInput).written,
      rf.apps.Pairwise (nameLe lenCmp)) := by
  refine ⟨rfl, lenCmp_consistent, ?_⟩
  refine (c7_locale_sorted_outputs typedRelInput (relRun typedRelInput) rfl
    ?_ lenCmp_consistent typedAllInput (allRun typedAllInput) rfl ?_
    lenCmp_consistent).1
  · intro f hf m hm
    fin_cases hf
    · obtain rfl := (Option.some.injEq _ _).mp hm
      exact ⟨"beta", rfl⟩
    · obtain rfl := (Option.some.injEq _ _).mp hm
      exact ⟨"al", rfl⟩
    · exact absurd hm (by simp [unparseableFile])
  · intro f hf m hm
    fin_cases hf
    · obtain rfl := (Option.some.injEq _ _).mp hm
      exact ⟨⟨_, rfl⟩, ⟨"beta", rfl⟩, Or.inr ⟨"Games", rfl⟩⟩
    · obtain rfl := (Option.some.injEq _ _).mp hm
      exact ⟨⟨_, rfl⟩, ⟨"al", rfl⟩, Or.inr ⟨"Games", rfl⟩⟩
    · exact absurd hm (by simp [unparseableFile])
    · obtain rfl := (Option.some.injEq _ _).mp hm
      exact ⟨⟨_, rfl⟩, ⟨"bad", rfl⟩, Or.inr ⟨"Games", rfl⟩⟩

/-- Claim C8 as amended: a malformed (unparseable) metadata file or one
missing required fields never aborts either script, and whenever every
parsed metadata file is an object whose `name` is a string, whose
`category` is falsy or a string, and whose category's coerced string key
does not name an inherited `Object.prototype` member, both runs complete
without an unhandled error; entries with a truthy non-string `category`,
non-string `name` values, or a category key such as `toString` can,
however, abort a run. -/
theorem c8_no_crash_amended (ir : GenRel.RelInput)
    (hnR : ∀ f ∈ ir.files, nameIsString f)
    (hkR : ∀ f ∈ ir.files, safeCategoryKey f)
    (ia : GenAll.AllInput) (htA : ∀ f ∈ ia.files, wellTypedEntry f)
    (hkA : ∀ f ∈ ia.files, safeCategoryKey f) :
    (∃ o, GenRel.relMain ir = .ok o) ∧
    (∃ o, GenAll.allMain ia = .ok o) := by
  constructor
  · by_cases hne : ir.files.length = 0
    · exact ⟨_, by unfold GenRel.relMain; rw [if_pos hne]⟩
    · obtain ⟨categorized, hcateg⟩ := categorize_ok_of_keysafe hkR
      have hok : ∀ p ∈ categorized,
          ∃ r, sortByE (localeCompareApp ir.cmp) p.2 = .ok r :=
        fun p hp => ⟨_, sortByE_apps_ok (categorize_names hcateg hnR p hp)⟩
      obtain ⟨⟨ws, names, cs⟩, hproc⟩ :=
        @GenRel.processCategories_ok ir.cmp ir.writeReleaseOk categorized hok
      refine ⟨⟨ws, names, GenRel.buildIndex ir categorized cs,
        GenRel.staleRemoved ir.existingFiles names, 0⟩, ?_⟩
      unfold GenRel.relMain
      rw [if_neg hne]
      simp only [hcateg, hproc]
  · by_cases hz : (GenAll.readAllMetadataFiles ia.git ia.files).length = 0
    · exact ⟨_, by unfold GenAll.allMain; rw [if_pos hz]⟩
    · have hcond : ∀ app ∈ GenAll.readAllMetadataFiles ia.git ia.files,
          (jsTruthy ((getField app "category").getD .jnull) = false ∨
            ∃ s, (getField app "category").getD .jnull = .jstr s) ∧
          objectPrototypeKeys.contains
            (jsToString (GenAll.categoryValue app)) = false :=
        fun a ha => ⟨readAll_category ia.git htA a ha,
          readAll_keysafe ia.git htA hkA a ha⟩
      obtain ⟨g, hg⟩ := GenAll.groupAppsAux_ok hcond []
      have hsorts : ∀ c ∈ g, ∃ r,
          sortByE (localeCompareApp ia.cmp) c.apps = .ok r := by
        intro c hc
        refine ⟨_, sortByE_apps_ok ?_⟩
        intro a ha
        rcases GenAll.groupAppsAux_mem hg c hc a ha with ⟨cx, hcx, -⟩ | hmem
        · simp at hcx
        · exact readAll_names ia.git htA a hmem
      obtain ⟨cats, hcats⟩ := GenAll.sortCats_ok hsorts
      have horg : GenAll.organizeAppsByCategory ia.cmp
          (GenAll.readAllMetadataFiles ia.git ia.files) = .ok cats := by
        unfold GenAll.organizeAppsByCategory
        simp only [hg]
        exact hcats
      cases hw : ia.writeOk
      · refine ⟨⟨none, 1⟩, ?_⟩
        unfold GenAll.allMain
        rw [if_neg hz]
        simp only [horg]
        rw [if_neg (by simp [hw])]
      · refine ⟨⟨some (GenAll.buildAllData ia.cmp ia.generatedAt
          (GenAll.readAllMetadataFiles ia.git ia.files) cats), 0⟩, ?_⟩
        unfold GenAll.allMain
        rw [if_neg hz]
        simp only [horg]
        rw [if_pos (by simp [hw])]

/-- Instantiation of the amended claim C8 at typed inputs that include an
unparseable file and a field-incomplete file: both runs complete. -/
theorem c8_no_crash_amended_witness :
    GenRel.relMain typedRelInput = .ok (relRun typedRelInput) ∧
    GenAll.allMain typedAllInput = .ok (allRun typedAllInput) ∧
    ((∃ o, GenRel.relMain typedRelInput = .ok o) ∧
     (∃ o, GenAll.allMain typedAllInput = .ok o)) := by
  refine ⟨rfl, rfl, c8_no_crash_amended typedRelInput ?_ ?_ typedAllInput
    ?_ ?_⟩
  · intro f hf m hm
    fin_cases hf
    · obtain rfl := (Option.some.injEq _ _).mp hm
      exact ⟨"beta", rfl⟩
    · obtain rfl := (Option.some.injEq _ _).mp hm
      exact ⟨"al", rfl⟩
    · exact absurd hm (by simp [unparseableFile])
  · intro f hf m hm
    fin_cases hf
    · obtain rfl := (Option.some.injEq _ _).mp hm
      decide
    · obtain rfl := (Option.some.injEq _ _).mp hm
      decide
    · exact absurd hm (by simp [unparseableFile])
  · intro f hf m hm
    fin_cases hf
    · obtain rfl := (Option.some.injEq _ _).mp hm
      exact ⟨⟨_, rfl⟩, ⟨"beta", rfl⟩, Or.inr ⟨"Games", rfl⟩⟩
    · obtain rfl := (Option.some.injEq _ _).mp hm
      exact ⟨⟨_, rfl⟩, ⟨"al", rfl⟩, Or.inr ⟨"Games", rfl⟩⟩
    · exact absurd hm (by simp [unparseableFile])
    · obtain rfl := (Option.some.injEq _ _).mp hm
      exact ⟨⟨_, rfl⟩, ⟨"bad", rfl⟩, Or.inr ⟨"Games", rfl⟩⟩
  · intro f hf m hm
    fin_cases hf
    · obtain rfl := (Option.some.injEq _ _).mp hm
      decide
    · obtain rfl := (Option.some.injEq _ _).mp hm
      decide
    · exact absurd hm (by simp [unparseableFile])
    · obtain rfl := (Option.some.injEq _ _).mp hm
      decide

end AppStore
